import Mathlib

/-!
Shallow embedding of the worst-case delay tool (`wcdTool.py`, class `Graph`)
of the 02226-NES repository, together with theorems checking the
natural-language specification against it.

Modelling conventions:
* Python floats are modelled as exact rationals (`ℚ`); all quantities that the
  relevant claims mention are the arithmetic values of the formulas, which the
  spec itself states over real numbers.
* Python `int` is modelled as `ℤ`.
* Fallible steps are modelled with `Except Err`: a Python uncaught exception
  (program abort) and a deliberate `return None` are distinguished by the
  `Err` constructor.  The bare `except:` in `compute_worst_case_delay`
  catches exactly the `ZeroDivisionError` of the bound formula and returns
  `None`; this is `Err.divZero`.
* Python `dict` (insertion ordered) is modelled as an association list with
  dict-faithful update (`setAt`: overwrite in place, append new keys at the
  end; `appendAt` for the dict-of-lists pattern `if key not in d: d[key]=[]`
  then `append`).
* `networkx` is external; the handful of behaviours the tool relies on are
  embedded directly: node membership, first-matching undirected edge lookup
  with attribute bag, and unweighted breadth-first shortest path.
* The path strings "node:linkId:port->...->dest" are modelled as lists of
  records (`PathElem`); the consumers of the string only ever read the node
  component (`split(":")[0]`), which is the `node` field.  This is exact for
  node names that contain no colon.
* The spec's Stream invariant `period > 0` is assumed where division by a
  period occurs (Python would raise on a zero period; no claim involves one).
-/

namespace WcdTool

/-- A stream record, as loaded by `Graph.load_streams` (`wcdTool.py` 108-124). -/
structure Stream where
  pcp : ℤ
  name : String
  type : String
  source : String
  destination : String
  size : ℤ
  period : ℚ
  deadline : ℚ
deriving DecidableEq, Repr

/-- The attribute bag attached to an edge by `Graph.load_from_csv`
(`wcdTool.py` 59-67). -/
structure EdgeData where
  link_id : String
  source_port : ℤ
  destination_port : ℤ
  source_device : String
  destination_device : String
deriving DecidableEq, Repr

/-- One element of an annotated stream path: the node name plus the egress
annotation written by `calculate_all_paths` (read back only through
`split(":")[0]`, i.e. the `node` field). -/
structure PathElem where
  node : String
  link_id : String
  port : ℤ
deriving DecidableEq, Repr

/-- The key of the queue-assignment dictionary: the quadruple
`(current_node, previous_node, output_port, pcp)` built at `wcdTool.py` 220. -/
structure QKey where
  node : String
  prev : String
  port : ℤ
  pcp : ℤ
deriving DecidableEq, Repr

/-- Failure modes of the embedded computations.  `noPath` and `divZero` are
the two `return None` sites of `compute_worst_case_delay`; the remaining
constructors are uncaught Python exceptions (program aborts). -/
inductive Err where
  | noPath
  | divZero
  | emptyMax
  | missingEdge
  | missingStream
deriving DecidableEq, Repr

/-- The `Graph` object state (`wcdTool.py` 6-21): topology, streams, derived
paths and queue assignments, and the configuration scalars. -/
structure Graph where
  nodes : List (String × String)
  edges : List EdgeData
  streams : List Stream
  stream_paths : List (String × List PathElem)
  queue_assignments : List (QKey × List String)
  r_link : ℚ
  header_size : ℤ
  processing_delay : ℚ
deriving DecidableEq, Repr

/-- Dict-faithful insertion-ordered update: `d[k] = v`. -/
def setAt {α : Type} (m : List (String × α)) (k : String) (v : α) :
    List (String × α) :=
  match m with
  | [] => [(k, v)]
  | (k1, v1) :: rest =>
      if k1 == k then (k, v) :: rest else (k1, v1) :: setAt rest k v

/-- Dict lookup on an insertion-ordered association list. -/
def lookupPath (sp : List (String × List PathElem)) (n : String) :
    Option (List PathElem) :=
  (sp.find? (fun kv => kv.1 == n)).map Prod.snd

/-- The `if key not in d: d[key] = []` / `d[key].append(n)` pattern of
`assign_queues` (`wcdTool.py` 222-224). -/
def appendAt (qa : List (QKey × List String)) (k : QKey) (n : String) :
    List (QKey × List String) :=
  match qa with
  | [] => [(k, [n])]
  | (k1, l) :: rest =>
      if k1 == k then (k1, l ++ [n]) :: rest else (k1, l) :: appendAt rest k n

/-- Lookup in the queue-assignment dictionary (empty list when absent). -/
def lookupQ (qa : List (QKey × List String)) (k : QKey) : List String :=
  ((qa.find? (fun kv => kv.1 == k)).map Prod.snd).getD []

/-- `next((s for s in self.streams if s["name"] == n), None)`. -/
def findStream (streams : List Stream) (n : String) : Option Stream :=
  streams.find? (fun s => s.name == n)

/-- `[s for s in self.streams if s["name"] == n]` (every match, in order). -/
def matchName (streams : List Stream) (n : String) : List Stream :=
  streams.filter (fun s => s.name == n)

/-- `self.G.get_edge_data(u, v)`: the attribute bag of the (undirected) edge
between `u` and `v`, if any. -/
def get_edge_data (g : Graph) (u v : String) : Option EdgeData :=
  g.edges.find? (fun e =>
    (e.source_device == u && e.destination_device == v) ||
    (e.source_device == v && e.destination_device == u))

/-- The direction-sensitive egress-port selection used identically at
`wcdTool.py` 176-182, 214-217 and 258-261. -/
def resolvePort (e : EdgeData) (current : String) : ℤ :=
  if current == e.source_device then e.source_port else e.destination_port

/-- `self.G.nodes[n].get("type")`. -/
def nodeType (g : Graph) (n : String) : Option String :=
  (g.nodes.find? (fun p => p.1 == n)).map Prod.snd

/-- Membership of a name in the `networkx` graph (declared node or edge
endpoint). -/
def memNode (g : Graph) (n : String) : Bool :=
  g.nodes.any (fun p => p.1 == n) ||
    g.edges.any (fun e => e.source_device == n || e.destination_device == n)

/-- The neighbours of `u` in the undirected topology graph. -/
def neighborsOf (g : Graph) (u : String) : List String :=
  g.edges.filterMap (fun e =>
    if e.source_device == u then some e.destination_device
    else if e.destination_device == u then some e.source_device
    else none)

/-- Fuel-bounded breadth-first search producing a path from the start node
(implicit in the initial frontier) to `target`.  Each frontier element is a
reversed path whose head is its current node; nodes are marked visited on
enqueue. -/
def bfsAux (g : Graph) (target : String) :
    Nat → List (List String) → List String → Option (List String)
  | 0, _, _ => none
  | _ + 1, [], _ => none
  | fuel + 1, p :: queue, visited =>
      match p with
      | [] => bfsAux g target fuel queue visited
      | u :: _ =>
          if u == target then some p.reverse
          else
            let ns := (neighborsOf g u).filter (fun v => !(visited.contains v))
            bfsAux g target fuel (queue ++ ns.map (fun v => v :: p))
              (visited ++ ns)

/-- `Graph.find_shortest_path` (`wcdTool.py` 126-155): `None` when either
endpoint is not in the graph or the target is unreachable, otherwise an
unweighted shortest path as a node list. -/
def find_shortest_path (g : Graph) (a b : String) : Option (List String) :=
  if !(memNode g a) || !(memNode g b) then none
  else bfsAux g b (g.nodes.length + 2 * g.edges.length + 2) [[a]] [a]

/-- The annotation loop of `calculate_all_paths` (`wcdTool.py` 166-188):
each hop contributes `current:linkId:egressPort`, the destination is appended
bare. -/
def annotate (g : Graph) (dest : String) : List String → Except Err (List PathElem)
  | [] => .ok [⟨dest, "", 0⟩]
  | [_] => .ok [⟨dest, "", 0⟩]
  | a :: b :: rest =>
      match get_edge_data g a b with
      | none => .error .missingEdge
      | some e =>
          match annotate g dest (b :: rest) with
          | .error er => .error er
          | .ok tail => .ok (⟨a, e.link_id, resolvePort e a⟩ :: tail)

/-- The per-stream loop of `Graph.calculate_all_paths` (`wcdTool.py` 161-195):
streams without a path are skipped, others get their annotated path stored
under their name. -/
def calcPathsAux (g : Graph) :
    List Stream → List (String × List PathElem) →
    Except Err (List (String × List PathElem))
  | [], acc => .ok acc
  | s :: rest, acc =>
      match find_shortest_path g s.source s.destination with
      | none => calcPathsAux g rest acc
      | some path =>
          match annotate g s.destination path with
          | .error er => .error er
          | .ok ap => calcPathsAux g rest (setAt acc s.name ap)

/-- `Graph.calculate_all_paths`. -/
def calculate_all_paths (g : Graph) : Except Err Graph :=
  match calcPathsAux g g.streams g.stream_paths with
  | .error er => .error er
  | .ok sp => .ok { g with stream_paths := sp }

/-- The inner hop loop of `Graph.assign_queues` (`wcdTool.py` 205-224),
carrying the previous node (initially `"N/A"`). -/
def assignHops (g : Graph) (pcp : ℤ) (name : String) :
    String → List PathElem → List (QKey × List String) →
    Except Err (List (QKey × List String))
  | _, [], qa => .ok qa
  | _, [_], qa => .ok qa
  | prev, a :: b :: rest, qa =>
      match get_edge_data g a.node b.node with
      | none => .error .missingEdge
      | some e =>
          assignHops g pcp name a.node (b :: rest)
            (appendAt qa ⟨a.node, prev, resolvePort e a.node, pcp⟩ name)

/-- The per-stream loop of `Graph.assign_queues` (`wcdTool.py` 201-224). -/
def assignAux (g : Graph) :
    List (String × List PathElem) → List (QKey × List String) →
    Except Err (List (QKey × List String))
  | [], qa => .ok qa
  | (name, path) :: rest, qa =>
      match findStream g.streams name with
      | none => .error .missingStream
      | some stream =>
          match assignHops g stream.pcp name "N/A" path qa with
          | .error er => .error er
          | .ok qa1 => assignAux g rest qa1

/-- `Graph.assign_queues`. -/
def assign_queues (g : Graph) : Except Err Graph :=
  match assignAux g g.stream_paths g.queue_assignments with
  | .error er => .error er
  | .ok qa => .ok { g with queue_assignments := qa }

/-- `Python max(l)` on a list known nonempty at call sites; `max(l or [0])`
is `pymaxZ`. -/
def pymaxZ (l : List ℤ) : ℤ :=
  match l with
  | [] => 0
  | x :: xs => xs.foldl max x

/-- Python `max` on a nonempty list of floats. -/
def pymaxQ (l : List ℚ) : ℚ :=
  match l with
  | [] => 0
  | x :: xs => xs.foldl max x

/-- Gathering all streams at a `(node, output_port)` egress across the
queue-assignment keys (`wcdTool.py` 264-269): filter on `k[0]` and `k[2]`,
flatten in dictionary order. -/
def interferingAt (qa : List (QKey × List String)) (node : String) (port : ℤ) :
    List String :=
  (qa.filter (fun kv => kv.1.node == node && kv.1.port == port)).flatMap
    Prod.snd

/-- Classification of an interfering stream name as higher priority than
`pcp` (`wcdTool.py` 276-284); names with no stream record are dropped. -/
def isHigher (streams : List Stream) (pcp : ℤ) (n : String) : Bool :=
  match findStream streams n with
  | some d => decide (d.pcp > pcp)
  | none => false

/-- Classification as same priority. -/
def isSame (streams : List Stream) (pcp : ℤ) (n : String) : Bool :=
  match findStream streams n with
  | some d => decide (d.pcp = pcp)
  | none => false

/-- Classification as lower priority. -/
def isLower (streams : List Stream) (pcp : ℤ) (n : String) : Bool :=
  match findStream streams n with
  | some d => decide (d.pcp < pcp)
  | none => false

/-- `higher_priority_streams` at a hop. -/
def higherAt (g : Graph) (pcp : ℤ) (node : String) (port : ℤ) : List String :=
  (interferingAt g.queue_assignments node port).filter (isHigher g.streams pcp)

/-- `same_priority_streams` at a hop. -/
def sameAt (g : Graph) (pcp : ℤ) (node : String) (port : ℤ) : List String :=
  (interferingAt g.queue_assignments node port).filter (isSame g.streams pcp)

/-- `lower_priority_streams` at a hop. -/
def lowerAt (g : Graph) (pcp : ℤ) (node : String) (port : ℤ) : List String :=
  (interferingAt g.queue_assignments node port).filter (isLower g.streams pcp)

/-- `r_H` (`wcdTool.py` 296-301): total rate of higher-priority streams. -/
def rHAt (g : Graph) (pcp : ℤ) (node : String) (port : ℤ) : ℚ :=
  (((higherAt g pcp node port).flatMap (matchName g.streams)).map
    (fun s => ((s.size + g.header_size : ℤ) : ℚ) / s.period)).sum

/-- `b_H` (`wcdTool.py` 304-309): total burst of higher-priority streams. -/
def bHAt (g : Graph) (pcp : ℤ) (node : String) (port : ℤ) : ℤ :=
  (((higherAt g pcp node port).flatMap (matchName g.streams)).map
    (fun s => s.size + g.header_size)).sum

/-- `l_L` (`wcdTool.py` 312-320): maximum lower-priority frame size, `0` when
there are none. -/
def lLAt (g : Graph) (pcp : ℤ) (node : String) (port : ℤ) : ℤ :=
  pymaxZ (((lowerAt g pcp node port).flatMap (matchName g.streams)).map
    (fun s => s.size + g.header_size))

/-- `b_j` (`wcdTool.py` 345-352): burst of the first stream named `j`, `0`
when none exists. -/
def bOf (g : Graph) (j : String) : ℤ :=
  match findStream g.streams j with
  | some s => s.size + g.header_size
  | none => 0

/-- The `temp_list` loop over same-priority streams (`wcdTool.py` 330-369).
`same` is the full same-priority list used for the exclusion sums; the last
argument is the remaining iteration suffix.  The guarded division models the
`ZeroDivisionError` caught by the bare `except` (`return None`). -/
def tempListAux (g : Graph) (bH lL : ℤ) (rH : ℚ) (same : List String) :
    List String → Except Err (List ℚ)
  | [] => .ok []
  | j :: js =>
      let bCj : ℤ := (((same.filter (fun n => n != j)).flatMap
        (matchName g.streams)).map (fun s => s.size + g.header_size)).sum
      let bj : ℤ := bOf g j
      let ljmin : ℤ := bj
      if g.r_link - rH = 0 ∨ g.r_link = 0 then .error .divZero
      else
        match tempListAux g bH lL rH same js with
        | .error er => .error er
        | .ok l =>
            .ok ((((bH + bCj + (bj - ljmin) + lL : ℤ) : ℚ) / (g.r_link - rH) +
              ((ljmin : ℤ) : ℚ) / g.r_link) :: l)

/-- The per-hop bound `d_f = max(temp_list)` (`wcdTool.py` 330-372), before
the processing-delay addition.  An empty maximization is Python's uncaught
`ValueError` (`emptyMax`). -/
def hop_df (g : Graph) (stream : Stream) (node : String) (port : ℤ) :
    Except Err ℚ :=
  let same := sameAt g stream.pcp node port
  match tempListAux g (bHAt g stream.pcp node port)
      (lLAt g stream.pcp node port) (rHAt g stream.pcp node port) same same with
  | .error er => .error er
  | .ok temps =>
      match temps with
      | [] => .error .emptyMax
      | x :: xs => .ok (xs.foldl max x)

/-- One iteration of the hop loop of `compute_worst_case_delay`
(`wcdTool.py` 252-385): resolve the egress port, compute `d_f`, add the
processing delay when the current node is a switch. -/
def hopDelay (g : Graph) (stream : Stream) (current next2 : String) :
    Except Err ℚ :=
  match get_edge_data g current next2 with
  | none => .error .missingEdge
  | some e =>
      match hop_df g stream current (resolvePort e current) with
      | .error er => .error er
      | .ok df =>
          .ok (if nodeType g current = some "SW"
            then df + g.processing_delay else df)

/-- The accumulating hop loop (`total_delay += d_f`). -/
def computeHops (g : Graph) (stream : Stream) :
    List PathElem → ℚ → Except Err ℚ
  | [], acc => .ok acc
  | [_], acc => .ok acc
  | a :: b :: rest, acc =>
      match hopDelay g stream a.node b.node with
      | .error er => .error er
      | .ok df => computeHops g stream (b :: rest) (acc + df)

/-- `Graph.compute_worst_case_delay` (`wcdTool.py` 226-390). -/
def compute_worst_case_delay (g : Graph) (stream_name : String) :
    Except Err ℚ :=
  match lookupPath g.stream_paths stream_name with
  | none => .error .noPath
  | some path =>
      match findStream g.streams stream_name with
      | none => .error .missingStream
      | some stream => computeHops g stream path 0

/-- The per-stream pipeline of `compute_worst_case_delay_for_all_streams`
(`wcdTool.py` 392-426) after loading: resolve paths, assign queues, compute
one stream's delay. -/
def wcdOf (g : Graph) (stream_name : String) : Except Err ℚ :=
  match calculate_all_paths g with
  | .error er => .error er
  | .ok g1 =>
      match assign_queues g1 with
      | .error er => .error er
      | .ok g2 => compute_worst_case_delay g2 stream_name

/-! ### Spec-side definitions (from the wording of spec section 4.4)

These follow the specification text, phrased over stream records rather than
stream names, and are compared with the code-derived definitions above. -/

/-- Spec 4.4 step 2a/2b: the stream records retrieved at `(node, port)`. -/
def streamsAtSpec (g : Graph) (node : String) (port : ℤ) : List Stream :=
  (interferingAt g.queue_assignments node port).filterMap (findStream g.streams)

/-- Spec 4.4 step 2b: the higher-priority class, as records. -/
def higherSpec (g : Graph) (pcp : ℤ) (node : String) (port : ℤ) : List Stream :=
  (streamsAtSpec g node port).filter (fun s => decide (s.pcp > pcp))

/-- Spec 4.4 step 2b: the same-priority class, as records. -/
def sameSpec (g : Graph) (pcp : ℤ) (node : String) (port : ℤ) : List Stream :=
  (streamsAtSpec g node port).filter (fun s => decide (s.pcp = pcp))

/-- Spec 4.4 step 2b: the lower-priority class, as records. -/
def lowerSpec (g : Graph) (pcp : ℤ) (node : String) (port : ℤ) : List Stream :=
  (streamsAtSpec g node port).filter (fun s => decide (s.pcp < pcp))

/-- Spec 4.4 step 2c: `r_H = Σ (size_k + headerOverhead) / period_k`. -/
def rHSpec (g : Graph) (pcp : ℤ) (node : String) (port : ℤ) : ℚ :=
  ((higherSpec g pcp node port).map
    (fun s => ((s.size + g.header_size : ℤ) : ℚ) / s.period)).sum

/-- Spec 4.4 step 2c: `b_H = Σ (size_k + headerOverhead)`. -/
def bHSpec (g : Graph) (pcp : ℤ) (node : String) (port : ℤ) : ℤ :=
  ((higherSpec g pcp node port).map (fun s => s.size + g.header_size)).sum

/-- Spec 4.4 step 2d: `l_L = max (size_k + headerOverhead)` or `0`. -/
def lLSpec (g : Graph) (pcp : ℤ) (node : String) (port : ℤ) : ℤ :=
  pymaxZ ((lowerSpec g pcp node port).map (fun s => s.size + g.header_size))

/-- Spec 4.4 step 2e: `candidate_j`, for a same-priority stream record `j`,
with `b_Cj` summed over same-priority streams other than `j`, `b_j =
size_j + headerOverhead` and `l_j_min = b_j`. -/
def candidateSpec (g : Graph) (pcp : ℤ) (node : String) (port : ℤ)
    (j : Stream) : ℚ :=
  let bCj : ℤ := (((sameSpec g pcp node port).filter
    (fun k => decide (k ≠ j))).map (fun s => s.size + g.header_size)).sum
  let bj : ℤ := j.size + g.header_size
  ((bHSpec g pcp node port + bCj + (bj - bj) + lLSpec g pcp node port : ℤ) : ℚ) /
      (g.r_link - rHSpec g pcp node port) + ((bj : ℤ) : ℚ) / g.r_link

/-- Spec 4.4 step 2f: `d_f = max over all candidate_j`. -/
def dfSpec (g : Graph) (pcp : ℤ) (node : String) (port : ℤ) : ℚ :=
  pymaxQ ((sameSpec g pcp node port).map (candidateSpec g pcp node port))

/-- The value `temp_result` computed by one iteration of the `temp_list`
loop, as a function of the iteration name `j` (exactly the body of
`tempListAux`). -/
def codeCand (g : Graph) (bH lL : ℤ) (rH : ℚ) (same : List String)
    (j : String) : ℚ :=
  let bCj : ℤ := (((same.filter (fun n => n != j)).flatMap
    (matchName g.streams)).map (fun s => s.size + g.header_size)).sum
  let bj : ℤ := bOf g j
  let ljmin : ℤ := bj
  ((bH + bCj + (bj - ljmin) + lL : ℤ) : ℚ) / (g.r_link - rH) +
    ((ljmin : ℤ) : ℚ) / g.r_link

/-! ### Derived views of the queue-assignment build -/

/-- The consecutive pairs of a path (one per hop). -/
def adjPairs : List PathElem → List (PathElem × PathElem)
  | [] => []
  | [_] => []
  | a :: b :: rest => (a, b) :: adjPairs (b :: rest)

/-- Whether a hop of a path sits at `(node, port)`: its edge resolves and the
direction-sensitive egress port matches. -/
def hopMatches (g : Graph) (node : String) (port : ℤ)
    (pr : PathElem × PathElem) : Bool :=
  match get_edge_data g pr.1.node pr.2.node with
  | none => false
  | some e => pr.1.node == node && resolvePort e pr.1.node == port

/-- A path occupies `(node, port)` when one of its hops matches. -/
def occupiesHop (g : Graph) (node : String) (port : ℤ)
    (path : List PathElem) : Prop :=
  ∃ pr ∈ adjPairs path, hopMatches g node port pr = true

/-- The sequence of queue keys a single stream's path contributes, in hop
order (mirrors `assignHops` without the accumulator). -/
def hopKeys (g : Graph) (pcp : ℤ) :
    String → List PathElem → Except Err (List QKey)
  | _, [] => .ok []
  | _, [_] => .ok []
  | prev, a :: b :: rest =>
      match get_edge_data g a.node b.node with
      | none => .error .missingEdge
      | some e =>
          match hopKeys g pcp a.node (b :: rest) with
          | .error er => .error er
          | .ok ks => .ok (⟨a.node, prev, resolvePort e a.node, pcp⟩ :: ks)

/-- The full (key, stream name) append sequence of `assign_queues`, in
execution order (mirrors `assignAux` without the accumulator). -/
def queueEntries (g : Graph) :
    List (String × List PathElem) → Except Err (List (QKey × String))
  | [] => .ok []
  | (name, path) :: rest =>
      match findStream g.streams name with
      | none => .error .missingStream
      | some stream =>
          match hopKeys g stream.pcp "N/A" path with
          | .error er => .error er
          | .ok ks =>
              match queueEntries g rest with
              | .error er => .error er
              | .ok es => .ok (ks.map (fun k => (k, name)) ++ es)

/-- Replaying an append sequence into a queue-assignment dictionary. -/
def qaFold (es : List (QKey × String)) (qa : List (QKey × List String)) :
    List (QKey × List String) :=
  es.foldl (fun q kn => appendAt q kn.1 kn.2) qa

/-! ### Reachability in the topology graph -/

/-- One undirected step in the topology graph. -/
def Adj (g : Graph) (u v : String) : Prop := v ∈ neighborsOf g u

/-- Reachability: the reflexive-transitive closure of adjacency. -/
def Reachable (g : Graph) (a b : String) : Prop :=
  Relation.ReflTransGen (Adj g) a b

/-! ### Concrete instances used by counterexamples and witnesses -/

/-- The single stream of the two-hop scenario of spec section 8. -/
def exS1 : Stream := ⟨7, "S1", "", "ES1", "ES2", 1000, 1000, 0⟩

/-- The two-hop scenario `ES1 - SW1 - ES2` of spec section 8, with
`r_link` chosen so that one frame transmits in one time unit. -/
def exTwoHop : Graph := {
  nodes := [("ES1", "ES"), ("SW1", "SW"), ("ES2", "ES")]
  edges := [⟨"L1", 1, 1, "ES1", "SW1"⟩, ⟨"L2", 2, 1, "SW1", "ES2"⟩]
  streams := [exS1]
  stream_paths := []
  queue_assignments := []
  r_link := 1042
  header_size := 42
  processing_delay := 8 }

/-- `exTwoHop` after `calculate_all_paths`. -/
def exTwoHop1 : Graph := { exTwoHop with
  stream_paths := [("S1",
    [⟨"ES1", "L1", 1⟩, ⟨"SW1", "L2", 2⟩, ⟨"ES2", "", 0⟩])] }

/-- `exTwoHop1` after `assign_queues`. -/
def exTwoHop2 : Graph := { exTwoHop1 with
  queue_assignments := [(⟨"ES1", "N/A", 1, 7⟩, ["S1"]),
    (⟨"SW1", "ES1", 2, 7⟩, ["S1"])] }

/-- A higher-priority stream whose rate slightly exceeds the link rate
`50`: burst `8 + 42 = 50`, period `1000/1001`, hence rate `50 + 1/20`. -/
def exSatH : Stream := ⟨7, "H", "", "ES1", "ES2", 8, 1000/1001, 0⟩

/-- The evaluated lower-priority stream of the near-saturation instance. -/
def exSatS : Stream := ⟨1, "S", "", "ES1", "ES2", 8, 1000, 0⟩

/-- A two-hop topology whose higher-priority aggregate rate differs from the
link rate `50` by `1/20` (relative `10⁻³`). -/
def exSat : Graph := {
  nodes := [("ES1", "ES"), ("SW1", "SW"), ("ES2", "ES")]
  edges := [⟨"L1", 1, 1, "ES1", "SW1"⟩, ⟨"L2", 2, 1, "SW1", "ES2"⟩]
  streams := [exSatH, exSatS]
  stream_paths := []
  queue_assignments := []
  r_link := 50
  header_size := 42
  processing_delay := 8 }

/-- `exSat` after `calculate_all_paths`. -/
def exSat1 : Graph := { exSat with
  stream_paths := [
    ("H", [⟨"ES1", "L1", 1⟩, ⟨"SW1", "L2", 2⟩, ⟨"ES2", "", 0⟩]),
    ("S", [⟨"ES1", "L1", 1⟩, ⟨"SW1", "L2", 2⟩, ⟨"ES2", "", 0⟩])] }

/-- `exSat1` after `assign_queues`. -/
def exSat2 : Graph := { exSat1 with
  queue_assignments := [
    (⟨"ES1", "N/A", 1, 7⟩, ["H"]), (⟨"SW1", "ES1", 2, 7⟩, ["H"]),
    (⟨"ES1", "N/A", 1, 1⟩, ["S"]), (⟨"SW1", "ES1", 2, 1⟩, ["S"])] }

/-- The near-saturation topology with the higher-priority stream's rate
equal to the link rate `50` exactly (period `1`, burst `50`), in the state
reached after `calculate_all_paths` and `assign_queues`. -/
def exSatEq : Graph := {
  nodes := [("ES1", "ES"), ("SW1", "SW"), ("ES2", "ES")]
  edges := [⟨"L1", 1, 1, "ES1", "SW1"⟩, ⟨"L2", 2, 1, "SW1", "ES2"⟩]
  streams := [⟨7, "H", "", "ES1", "ES2", 8, 1, 0⟩, exSatS]
  stream_paths := [
    ("H", [⟨"ES1", "L1", 1⟩, ⟨"SW1", "L2", 2⟩, ⟨"ES2", "", 0⟩]),
    ("S", [⟨"ES1", "L1", 1⟩, ⟨"SW1", "L2", 2⟩, ⟨"ES2", "", 0⟩])]
  queue_assignments := [
    (⟨"ES1", "N/A", 1, 7⟩, ["H"]), (⟨"SW1", "ES1", 2, 7⟩, ["H"]),
    (⟨"ES1", "N/A", 1, 1⟩, ["S"]), (⟨"SW1", "ES1", 2, 1⟩, ["S"])]
  r_link := 50
  header_size := 42
  processing_delay := 8 }

/-- A Y-shaped topology: `ES1` and `ES3` both reach `ES2` through `SW1`,
with two equal-priority streams converging on the same egress port of
`SW1` from different predecessors. -/
def exY : Graph := {
  nodes := [("ES1", "ES"), ("ES3", "ES"), ("SW1", "SW"), ("ES2", "ES")]
  edges := [⟨"L1", 1, 1, "ES1", "SW1"⟩, ⟨"L2", 1, 2, "ES3", "SW1"⟩,
    ⟨"L3", 3, 1, "SW1", "ES2"⟩]
  streams := [⟨5, "S1", "", "ES1", "ES2", 100, 1000, 0⟩,
    ⟨5, "S2", "", "ES3", "ES2", 100, 1000, 0⟩]
  stream_paths := []
  queue_assignments := []
  r_link := 1000
  header_size := 42
  processing_delay := 8 }

/-- `exY` after `calculate_all_paths`. -/
def exY1 : Graph := { exY with
  stream_paths := [
    ("S1", [⟨"ES1", "L1", 1⟩, ⟨"SW1", "L3", 3⟩, ⟨"ES2", "", 0⟩]),
    ("S2", [⟨"ES3", "L2", 1⟩, ⟨"SW1", "L3", 3⟩, ⟨"ES2", "", 0⟩])] }

/-- `exY1` after `assign_queues`. -/
def exY2 : Graph := { exY1 with
  queue_assignments := [
    (⟨"ES1", "N/A", 1, 5⟩, ["S1"]), (⟨"SW1", "ES1", 3, 5⟩, ["S1"]),
    (⟨"ES3", "N/A", 1, 5⟩, ["S2"]), (⟨"SW1", "ES3", 3, 5⟩, ["S2"])] }

/-- A higher-priority stream of rate `25` (burst `50`, period `2`). -/
def exMonoH1 : Stream := ⟨7, "H", "", "", "", 8, 2, 0⟩

/-- The same stream with its period shortened to `5/4` (rate `40`). -/
def exMonoH2 : Stream := ⟨7, "H", "", "", "", 8, 5/4, 0⟩

/-- The evaluated lower-priority stream of the monotonicity instance. -/
def exMonoS : Stream := ⟨1, "S", "", "", "", 8, 1000, 0⟩

/-- A one-queue state (index prebuilt) for the monotonicity claim: `H` and
`S` share egress port `1` of node `N`, link rate `50`. -/
def exMono1 : Graph := {
  nodes := [("N", "SW")]
  edges := []
  streams := [exMonoH1, exMonoS]
  stream_paths := []
  queue_assignments := [(⟨"N", "N/A", 1, 7⟩, ["H"]), (⟨"N", "N/A", 1, 1⟩, ["S"])]
  r_link := 50
  header_size := 42
  processing_delay := 8 }

/-- `exMono1` with `H` sped up to rate `40`. -/
def exMono2 : Graph := { exMono1 with streams := [exMonoH2, exMonoS] }

/-- A stream whose source `ES9` is absent from the two-hop topology. -/
def exSkipBad : Stream := ⟨3, "B", "", "ES9", "ES2", 100, 10, 0⟩

/-- The two-hop topology with a second, unroutable stream added. -/
def exSkip : Graph := { exTwoHop with streams := [exS1, exSkipBad] }

end WcdTool

deriving instance DecidableEq for Except

namespace WcdTool

set_option maxRecDepth 6000

/-! ### Generic lemmas about the embedded operations -/

/-- `get_edge_data` is symmetric in its endpoints: the undirected edge lookup
returns the same attribute bag in both traversal directions. -/
theorem get_edge_data_symm (g : Graph) (u v : String) :
    get_edge_data g u v = get_edge_data g v u := by
  unfold get_edge_data
  induction g.edges with
  | nil => rfl
  | cons e rest ih =>
      rw [List.find?_cons, List.find?_cons]
      have h : ((e.source_device == u && e.destination_device == v) ||
          (e.source_device == v && e.destination_device == u)) =
          ((e.source_device == v && e.destination_device == u) ||
          (e.source_device == u && e.destination_device == v)) :=
        Bool.or_comm _ _
      rw [h]
      cases hb : ((e.source_device == v && e.destination_device == u) ||
          (e.source_device == u && e.destination_device == v)) <;>
        simp [hb, ih]

/-! ### C5 -/

/-- C5: for a link between devices `A` and `B` carrying ports `pA` (on `A`)
and `pB` (on `B`), the egress-port resolution used by the path annotator,
the queue assigner and the delay engine returns `pA` when traversing from
`A` and `pB` when traversing from `B`, whichever endpoint was declared
first when the link was added; the undirected edge lookup also finds the
same link from either side. -/
theorem wcd_C5 (g : Graph) (A B lid : String) (pA pB : ℤ) (e : EdgeData)
    (hAB : A ≠ B) (hed : get_edge_data g A B = some e)
    (hor : e = ⟨lid, pA, pB, A, B⟩ ∨ e = ⟨lid, pB, pA, B, A⟩) :
    resolvePort e A = pA ∧ resolvePort e B = pB ∧
      get_edge_data g B A = some e := by
  refine ⟨?_, ?_, by rw [← get_edge_data_symm]; exact hed⟩ <;>
    rcases hor with h | h <;> subst h <;>
      simp [resolvePort, hAB, Ne.symm hAB]

/-- Witness for C5: the `ES3 - SW1` link of the Y topology, declared with
`ES3` first, resolves to port `1` from `ES3` and port `2` from `SW1`. -/
theorem wcd_C5_witness :
    resolvePort ⟨"L2", 1, 2, "ES3", "SW1"⟩ "ES3" = 1 ∧
      resolvePort ⟨"L2", 1, 2, "ES3", "SW1"⟩ "SW1" = 2 ∧
      get_edge_data exY "SW1" "ES3" = some ⟨"L2", 1, 2, "ES3", "SW1"⟩ :=
  wcd_C5 exY "ES3" "SW1" "L2" 1 2 ⟨"L2", 1, 2, "ES3", "SW1"⟩
    (by decide) (by decide) (Or.inl rfl)

/-! ### C4 -/

/-- C4: the fixed processing delay is added to a hop's bound `d_f` exactly
when the hop's current node has kind `SW`; and in the two-hop scenario
`ES1 -> SW1 -> ES2` with a single stream the total delay is
`hop1 + hop2` where only the `SW1` hop includes one `processing_delay`
addition (each raw hop bound being `1` with the chosen link rate). -/
theorem wcd_C4 :
    (∀ (g : Graph) (stream : Stream) (current next2 : String) (e : EdgeData)
      (df : ℚ), get_edge_data g current next2 = some e →
      hop_df g stream current (resolvePort e current) = .ok df →
      hopDelay g stream current next2 =
        .ok (if nodeType g current = some "SW"
          then df + g.processing_delay else df)) ∧
    calculate_all_paths exTwoHop = .ok exTwoHop1 ∧
    assign_queues exTwoHop1 = .ok exTwoHop2 ∧
    nodeType exTwoHop2 "ES1" = some "ES" ∧
    nodeType exTwoHop2 "SW1" = some "SW" ∧
    hop_df exTwoHop2 exS1 "ES1" 1 = .ok 1 ∧
    hop_df exTwoHop2 exS1 "SW1" 2 = .ok 1 ∧
    hopDelay exTwoHop2 exS1 "ES1" "SW1" = .ok 1 ∧
    hopDelay exTwoHop2 exS1 "SW1" "ES2" = .ok (1 + 8) ∧
    compute_worst_case_delay exTwoHop2 "S1" = .ok (1 + (1 + 8)) := by
  constructor
  · intro g stream current next2 e df hed hdf
    simp [hopDelay, hed, hdf]
  · with_unfolding_all decide

/-- Witness for C4: its universal part applied at the switch hop of the
two-hop scenario. -/
theorem wcd_C4_witness :
    hopDelay exTwoHop2 exS1 "SW1" "ES2" = .ok (1 + 8) := by
  have h := wcd_C4.1 exTwoHop2 exS1 "SW1" "ES2" ⟨"L2", 2, 1, "SW1", "ES2"⟩ 1
    (by with_unfolding_all decide) (by with_unfolding_all decide)
  have hc : nodeType exTwoHop2 "SW1" = some "SW" := by decide
  simpa [hc] using h

/-! ### C2 -/

/-- C2 counterexample: a run whose higher-priority aggregate rate differs
from the link rate by `1/20` of a unit (relative distance `10⁻³`; the code
defines no epsilon at all, so any nonzero distance behaves this way) does
not fail: the delay computation returns a plain `.ok` value, and that value
is negative. -/
theorem wcd_C2_counterexample :
    calculate_all_paths exSat = .ok exSat1 ∧
    assign_queues exSat1 = .ok exSat2 ∧
    exSat2.r_link = 50 ∧
    rHAt exSat2 1 "ES1" 1 = 50 + 1 / 20 ∧
    compute_worst_case_delay exSat2 "S" = .ok (-1990) ∧
    ((-1990 : ℚ) < 0) := by
  with_unfolding_all decide

/-! ### C9 -/

/-- C9 counterexample: `assign_queues` run a second time on the same object
appends every stream again instead of rebuilding: after the second call each
index entry holds `["S1", "S1"]`, which differs from the single-call index. -/
theorem wcd_C9_counterexample :
    assign_queues exTwoHop1 = .ok exTwoHop2 ∧
    assign_queues exTwoHop2 = .ok { exTwoHop2 with queue_assignments :=
      [(⟨"ES1", "N/A", 1, 7⟩, ["S1", "S1"]),
       (⟨"SW1", "ES1", 2, 7⟩, ["S1", "S1"])] } ∧
    [(⟨"ES1", "N/A", 1, 7⟩, ["S1", "S1"]),
       (⟨"SW1", "ES1", 2, 7⟩, ["S1", "S1"])] ≠
      exTwoHop2.queue_assignments := by
  with_unfolding_all decide

/-! ### C3 -/

/-- C3 counterexample: two equal-priority streams that share the hop
`(SW1, egress port 3)` with priority `5` are appended under two different
index keys (the key also carries the previous node), so the index key is
not the claimed triple: no single entry holds both stream names. -/
theorem wcd_C3_counterexample :
    calculate_all_paths exY = .ok exY1 ∧
    assign_queues exY1 = .ok exY2 ∧
    (⟨"SW1", "ES1", 3, 5⟩ : QKey) ≠ ⟨"SW1", "ES3", 3, 5⟩ ∧
    (⟨"SW1", "ES1", 3, 5⟩ : QKey).node = (⟨"SW1", "ES3", 3, 5⟩ : QKey).node ∧
    (⟨"SW1", "ES1", 3, 5⟩ : QKey).port = (⟨"SW1", "ES3", 3, 5⟩ : QKey).port ∧
    (⟨"SW1", "ES1", 3, 5⟩ : QKey).pcp = (⟨"SW1", "ES3", 3, 5⟩ : QKey).pcp ∧
    lookupQ exY2.queue_assignments ⟨"SW1", "ES1", 3, 5⟩ = ["S1"] ∧
    lookupQ exY2.queue_assignments ⟨"SW1", "ES3", 3, 5⟩ = ["S2"] ∧
    (¬ ∃ kv ∈ exY2.queue_assignments, "S1" ∈ kv.2 ∧ "S2" ∈ kv.2) := by
  with_unfolding_all decide

/-! ### Lemmas about stream lookup and the priority classes -/

/-- A found stream bears the name it was looked up by. -/
theorem findStream_name {streams : List Stream} {n : String} {s : Stream}
    (h : findStream streams n = some s) : s.name = n := by
  have := List.find?_some h
  simpa [beq_iff_eq] using this

/-- Looking a found stream up again by its own name finds it again. -/
theorem findStream_self {streams : List Stream} {n : String} {s : Stream}
    (h : findStream streams n = some s) : findStream streams s.name = some s := by
  rw [findStream_name h]; exact h

/-- Unfolding `matchName` one stream at a time. -/
theorem matchName_cons (t : Stream) (ts : List Stream) (n : String) :
    matchName (t :: ts) n =
      if t.name = n then t :: matchName ts n else matchName ts n := by
  rw [matchName, matchName, List.filter_cons]
  by_cases ht : t.name = n <;> simp [ht]

/-- Unfolding `findStream` one stream at a time. -/
theorem findStream_cons (t : Stream) (ts : List Stream) (n : String) :
    findStream (t :: ts) n =
      if t.name = n then some t else findStream ts n := by
  rw [findStream, findStream, List.find?_cons]
  by_cases ht : t.name = n
  · simp [ht]
  · have hb : (t.name == n) = false := by simpa using ht
    simp [hb, ht]

/-- With pairwise-distinct stream names, the full filter by name returns
exactly the stream that `findStream` finds. -/
theorem matchName_of_findStream {streams : List Stream}
    (hnd : (streams.map Stream.name).Nodup) {n : String} {s : Stream}
    (h : findStream streams n = some s) : matchName streams n = [s] := by
  induction streams with
  | nil => cases h
  | cons t ts ih =>
      rw [List.map_cons, List.nodup_cons] at hnd
      rw [findStream_cons] at h
      rw [matchName_cons]
      by_cases ht : t.name = n
      · rw [if_pos ht] at h
        injection h with h2
        subst h2
        rw [if_pos ht]
        have hnil : matchName ts n = [] := by
          rw [matchName, List.filter_eq_nil_iff]
          intro u hu hc
          simp only [beq_iff_eq] at hc
          exact hnd.1 (by rw [ht, ← hc]; exact List.mem_map_of_mem Stream.name hu)
        rw [hnil]
      · rw [if_neg ht] at h
        rw [if_neg ht]
        exact ih hnd.2 h

/-- When no stream bears a name, the filter by that name is empty. -/
theorem matchName_of_none {streams : List Stream} {n : String}
    (h : findStream streams n = none) : matchName streams n = [] := by
  rw [findStream, List.find?_eq_none] at h
  rw [matchName, List.filter_eq_nil_iff]
  exact h

/-- `isHigher` through the option view of the lookup. -/
theorem isHigher_eq (streams : List Stream) (pcp : ℤ) (n : String) :
    isHigher streams pcp n =
      ((findStream streams n).map (fun d => decide (d.pcp > pcp))).getD false := by
  cases h : findStream streams n <;> simp [isHigher, h]

/-- `isSame` through the option view of the lookup. -/
theorem isSame_eq (streams : List Stream) (pcp : ℤ) (n : String) :
    isSame streams pcp n =
      ((findStream streams n).map (fun d => decide (d.pcp = pcp))).getD false := by
  cases h : findStream streams n <;> simp [isSame, h]

/-- `isLower` through the option view of the lookup. -/
theorem isLower_eq (streams : List Stream) (pcp : ℤ) (n : String) :
    isLower streams pcp n =
      ((findStream streams n).map (fun d => decide (d.pcp < pcp))).getD false := by
  cases h : findStream streams n <;> simp [isLower, h]

/-- Under distinct stream names, filtering names by a looked-up property and
expanding each name to its matching records equals looking every name up and
filtering the records by the property. -/
theorem classFilter_flatMap (streams : List Stream)
    (hnd : (streams.map Stream.name).Nodup) (pb : Stream → Bool) :
    ∀ ns : List String,
      ((ns.filter (fun n => ((findStream streams n).map pb).getD false)).flatMap
        (matchName streams)) = (ns.filterMap (findStream streams)).filter pb := by
  intro ns
  induction ns with
  | nil => rfl
  | cons n ns ih =>
      cases hf : findStream streams n with
      | none => simp [List.filter_cons, List.filterMap_cons, hf, ih]
      | some d =>
          cases hpb : pb d with
          | false => simp [List.filter_cons, List.filterMap_cons, hf, hpb,
              List.filter_cons, ih]
          | true => simp [List.filter_cons, List.filterMap_cons, hf, hpb, ih,
              matchName_of_findStream hnd hf]

/-- Name-level class filtering commutes with record lookup. -/
theorem classFilter_filterMap (streams : List Stream) (pb : Stream → Bool) :
    ∀ ns : List String,
      (ns.filter (fun n => ((findStream streams n).map pb).getD false)).filterMap
        (findStream streams) = (ns.filterMap (findStream streams)).filter pb := by
  intro ns
  induction ns with
  | nil => rfl
  | cons n ns ih =>
      cases hf : findStream streams n with
      | none => simp [List.filter_cons, List.filterMap_cons, hf, ih]
      | some d =>
          cases hpb : pb d with
          | false => simp [List.filter_cons, List.filterMap_cons, hf, hpb, ih]
          | true => simp [List.filter_cons, List.filterMap_cons, hf, hpb, ih]

/-- The higher-priority name list expanded to records is the spec's
higher-priority record list. -/
theorem higherAt_flat (g : Graph) (pcp : ℤ) (node : String) (port : ℤ)
    (hnd : (g.streams.map Stream.name).Nodup) :
    (higherAt g pcp node port).flatMap (matchName g.streams) =
      higherSpec g pcp node port := by
  rw [higherAt, higherSpec, streamsAtSpec]
  rw [show (isHigher g.streams pcp) = (fun n =>
    ((findStream g.streams n).map (fun d => decide (d.pcp > pcp))).getD false)
    from funext (isHigher_eq g.streams pcp)]
  exact classFilter_flatMap g.streams hnd _ _

/-- The lower-priority name list expanded to records is the spec's
lower-priority record list. -/
theorem lowerAt_flat (g : Graph) (pcp : ℤ) (node : String) (port : ℤ)
    (hnd : (g.streams.map Stream.name).Nodup) :
    (lowerAt g pcp node port).flatMap (matchName g.streams) =
      lowerSpec g pcp node port := by
  rw [lowerAt, lowerSpec, streamsAtSpec]
  rw [show (isLower g.streams pcp) = (fun n =>
    ((findStream g.streams n).map (fun d => decide (d.pcp < pcp))).getD false)
    from funext (isLower_eq g.streams pcp)]
  exact classFilter_flatMap g.streams hnd _ _

/-- Looking up the same-priority names yields the spec's same-priority
record list. -/
theorem sameAt_filterMap (g : Graph) (pcp : ℤ) (node : String) (port : ℤ) :
    (sameAt g pcp node port).filterMap (findStream g.streams) =
      sameSpec g pcp node port := by
  rw [sameAt, sameSpec, streamsAtSpec]
  rw [show (isSame g.streams pcp) = (fun n =>
    ((findStream g.streams n).map (fun d => decide (d.pcp = pcp))).getD false)
    from funext (isSame_eq g.streams pcp)]
  exact classFilter_filterMap g.streams _ _

/-- The code's `r_H` is the spec's `r_H`. -/
theorem rHAt_spec (g : Graph) (pcp : ℤ) (node : String) (port : ℤ)
    (hnd : (g.streams.map Stream.name).Nodup) :
    rHAt g pcp node port = rHSpec g pcp node port := by
  rw [rHAt, rHSpec, higherAt_flat g pcp node port hnd]

/-- The code's `b_H` is the spec's `b_H`. -/
theorem bHAt_spec (g : Graph) (pcp : ℤ) (node : String) (port : ℤ)
    (hnd : (g.streams.map Stream.name).Nodup) :
    bHAt g pcp node port = bHSpec g pcp node port := by
  rw [bHAt, bHSpec, higherAt_flat g pcp node port hnd]

/-- The code's `l_L` is the spec's `l_L`. -/
theorem lLAt_spec (g : Graph) (pcp : ℤ) (node : String) (port : ℤ)
    (hnd : (g.streams.map Stream.name).Nodup) :
    lLAt g pcp node port = lLSpec g pcp node port := by
  rw [lLAt, lLSpec, lowerAt_flat g pcp node port hnd]

/-- A successful `temp_list` run returns exactly the candidate values of the
iterated names, in order. -/
theorem tempListAux_ok (g : Graph) (bH lL : ℤ) (rH : ℚ) (same : List String) :
    ∀ (js : List String) (l : List ℚ),
      tempListAux g bH lL rH same js = .ok l →
      l = js.map (codeCand g bH lL rH same) := by
  intro js
  induction js with
  | nil =>
      intro l h
      simp only [tempListAux] at h
      injection h with h2
      subst h2
      rfl
  | cons j js ih =>
      intro l h
      simp only [tempListAux] at h
      split at h
      · cases h
      · cases ht : tempListAux g bH lL rH same js with
        | error er => rw [ht] at h; cases h
        | ok l2 =>
            rw [ht] at h
            simp only [] at h
            injection h with h2
            subst h2
            rw [List.map_cons, ← ih l2 ht]
            rfl

/-- Every member of the same-priority name list has a record of the same
priority. -/
theorem sameAt_mem {g : Graph} {pcp : ℤ} {node : String} {port : ℤ}
    {m : String} (hm : m ∈ sameAt g pcp node port) :
    ∃ d, findStream g.streams m = some d ∧ d.pcp = pcp := by
  rw [sameAt] at hm
  have h2 := (List.mem_filter.mp hm).2
  rw [isSame_eq] at h2
  cases hf : findStream g.streams m with
  | none => rw [hf] at h2; simp at h2
  | some d =>
      rw [hf] at h2
      simp at h2
      exact ⟨d, rfl, h2⟩

/-- Every record retrieved at a queue is found again under its own name. -/
theorem streamsAtSpec_lookup {g : Graph} {node : String} {port : ℤ}
    {k : Stream} (hk : k ∈ streamsAtSpec g node port) :
    findStream g.streams k.name = some k := by
  rw [streamsAtSpec] at hk
  obtain ⟨m, _, hfm⟩ := List.mem_filterMap.mp hk
  exact findStream_self hfm

/-- Expanding a name list (all of whose names resolve) with one name
excluded equals excluding that name from the resolved records. -/
theorem excl_flat (streams : List Stream)
    (hnd : (streams.map Stream.name).Nodup) :
    ∀ (ns : List String) (n : String),
      (∀ m ∈ ns, (findStream streams m).isSome) →
      ((ns.filter (fun m => m != n)).flatMap (matchName streams)) =
        (ns.filterMap (findStream streams)).filter (fun k => k.name != n) := by
  intro ns
  induction ns with
  | nil => intro n _; rfl
  | cons m ms ih =>
      intro n hall
      obtain ⟨d, hd⟩ : ∃ d, findStream streams m = some d :=
        Option.isSome_iff_exists.mp (hall m (.head _))
      have hdn : d.name = m := findStream_name hd
      have hrest := ih n (fun u hu => hall u (.tail _ hu))
      by_cases hmn : m = n
      · subst hmn
        simp [List.filter_cons, List.filterMap_cons, hd, hdn, hrest]
      · simp [List.filter_cons, List.filterMap_cons, hmn, hd, hdn, hrest,
          matchName_of_findStream hnd hd]

/-- The code's exclusion sum `b_C_j` (over names) equals the spec's
exclusion sum (over records). -/
theorem bCj_eq (g : Graph) (pcp : ℤ) (node : String) (port : ℤ)
    (hnd : (g.streams.map Stream.name).Nodup) {n : String} {j : Stream}
    (hj : findStream g.streams n = some j) :
    ((((sameAt g pcp node port).filter (fun m => m != n)).flatMap
      (matchName g.streams)).map (fun s => s.size + g.header_size)).sum =
    (((sameSpec g pcp node port).filter (fun k => decide (k ≠ j))).map
      (fun s => s.size + g.header_size)).sum := by
  rw [excl_flat g.streams hnd _ n
    (fun m hm => by obtain ⟨d, hd, _⟩ := sameAt_mem hm; rw [hd]; rfl)]
  rw [sameAt_filterMap]
  have hfil : (sameSpec g pcp node port).filter (fun k => k.name != n) =
      (sameSpec g pcp node port).filter (fun k => decide (k ≠ j)) := by
    apply List.filter_congr
    intro k hk
    have hks : findStream g.streams k.name = some k :=
      streamsAtSpec_lookup (List.mem_of_mem_filter hk)
    by_cases h : k.name = n
    · have hkj : k = j := by
        rw [h] at hks
        rw [hks] at hj
        injection hj
      subst hkj
      simp [h]
    · have hkj : k ≠ j := fun hkj2 => h (by rw [hkj2, findStream_name hj])
      simp [h, hkj]
  rw [hfil]

/-- The candidate the code computes for a name equals the spec's candidate
for that name's record. -/
theorem codeCand_eq_spec (g : Graph) (pcp : ℤ) (node : String) (port : ℤ)
    (hnd : (g.streams.map Stream.name).Nodup) {n : String} {j : Stream}
    (hj : findStream g.streams n = some j) :
    codeCand g (bHAt g pcp node port) (lLAt g pcp node port)
      (rHAt g pcp node port) (sameAt g pcp node port) n =
    candidateSpec g pcp node port j := by
  have h5 : bOf g n = j.size + g.header_size := by rw [bOf, hj]
  simp only [codeCand, candidateSpec]
  rw [bHAt_spec g pcp node port hnd, lLAt_spec g pcp node port hnd,
    rHAt_spec g pcp node port hnd, bCj_eq g pcp node port hnd hj, h5]

/-- Mapping a name-indexed function over names equals mapping a
record-indexed function over the resolved records, when they agree. -/
theorem map_names_records (streams : List Stream) :
    ∀ (ns : List String) (f : String → ℚ) (h : Stream → ℚ),
      (∀ n ∈ ns, ∃ d, findStream streams n = some d ∧ f n = h d) →
      ns.map f = (ns.filterMap (findStream streams)).map h := by
  intro ns
  induction ns with
  | nil => intro f h _; rfl
  | cons n ns2 ih =>
      intro f h hall
      obtain ⟨d, hd, hfd⟩ := hall n (.head _)
      simp only [List.map_cons, List.filterMap_cons, hd]
      rw [hfd, ih f h (fun m hm => hall m (.tail _ hm))]

/-! ### C1 -/

/-- C1: for a stream evaluated at a hop `(node, port)`, a successful hop
bound `d_f` is exactly the maximum, over every same-priority stream `j`
retrieved at that queue (the evaluated stream included), of the spec's
candidate `(b_H + b_Cj + (b_j - l_j_min) + l_L) / (linkRate - r_H) +
l_j_min / linkRate` — the maximization over all siblings, not any fixed
exclusion rule.  Stream names are assumed pairwise distinct (a spec data
invariant). -/
theorem wcd_C1 (g : Graph) (stream : Stream) (node : String) (port : ℤ)
    (d : ℚ) (hnd : (g.streams.map Stream.name).Nodup)
    (hok : hop_df g stream node port = .ok d) :
    d = dfSpec g stream.pcp node port := by
  simp only [hop_df] at hok
  cases ht : tempListAux g (bHAt g stream.pcp node port)
      (lLAt g stream.pcp node port) (rHAt g stream.pcp node port)
      (sameAt g stream.pcp node port) (sameAt g stream.pcp node port) with
  | error er => rw [ht] at hok; cases hok
  | ok temps =>
      rw [ht] at hok
      have htemps := tempListAux_ok g _ _ _ _ _ _ ht
      have hd : d = pymaxQ temps := by
        cases temps with
        | nil => cases hok
        | cons x xs =>
            simp only [] at hok
            injection hok with h2
            rw [← h2, pymaxQ]
      rw [hd, htemps, dfSpec]
      congr 1
      rw [← sameAt_filterMap]
      apply map_names_records
      intro n hn
      obtain ⟨dn, hdn, _⟩ := sameAt_mem hn
      exact ⟨dn, hdn, codeCand_eq_spec g stream.pcp node port hnd hdn⟩

/-- Witness for C1: the two-hop scenario's first hop, whose bound `1` is the
spec maximum. -/
theorem wcd_C1_witness : (1 : ℚ) = dfSpec exTwoHop2 exS1.pcp "ES1" 1 :=
  wcd_C1 exTwoHop2 exS1 "ES1" 1 1 (by decide)
    (by with_unfolding_all decide)

/-! ### C2 amended -/

/-- C2 amended: only when the higher-priority aggregate rate equals the link
rate exactly does the computation fail, via the caught `ZeroDivisionError`,
surfaced as the `None` return (`divZero`); there is no epsilon band and no
dedicated saturation error.  Part one states the hop-level failure, part two
its surfacing through `compute_worst_case_delay` for a stream whose first
hop is saturated. -/
theorem wcd_C2_amended :
    (∀ (g : Graph) (stream : Stream) (node : String) (port : ℤ),
      rHAt g stream.pcp node port = g.r_link →
      sameAt g stream.pcp node port ≠ [] →
      hop_df g stream node port = .error .divZero) ∧
    (∀ (g : Graph) (sn : String) (stream : Stream) (a b : PathElem)
      (rest : List PathElem) (e : EdgeData),
      lookupPath g.stream_paths sn = some (a :: b :: rest) →
      findStream g.streams sn = some stream →
      get_edge_data g a.node b.node = some e →
      rHAt g stream.pcp a.node (resolvePort e a.node) = g.r_link →
      sameAt g stream.pcp a.node (resolvePort e a.node) ≠ [] →
      compute_worst_case_delay g sn = .error .divZero) := by
  have part1 : ∀ (g : Graph) (stream : Stream) (node : String) (port : ℤ),
      rHAt g stream.pcp node port = g.r_link →
      sameAt g stream.pcp node port ≠ [] →
      hop_df g stream node port = .error .divZero := by
    intro g stream node port hsat hne
    have h0 : g.r_link - rHAt g stream.pcp node port = 0 := by
      rw [hsat]; ring
    obtain ⟨j, js, hsm⟩ : ∃ j js, sameAt g stream.pcp node port = j :: js := by
      cases hsm2 : sameAt g stream.pcp node port with
      | nil => exact absurd hsm2 hne
      | cons j js => exact ⟨j, js, rfl⟩
    simp [hop_df, hsm, tempListAux, h0]
  refine ⟨part1, ?_⟩
  intro g sn stream a b rest e hlp hfs hed hsat hne
  have hhop := part1 g stream a.node (resolvePort e a.node) hsat hne
  simp [compute_worst_case_delay, hlp, hfs, computeHops, hopDelay, hed, hhop]

/-- Witness for C2 amended: a higher-priority stream of rate exactly the
link rate makes the evaluated stream's delay computation fail with the
`None`-returning division error. -/
theorem wcd_C2_amended_witness :
    compute_worst_case_delay exSatEq "S" = .error .divZero :=
  wcd_C2_amended.2 exSatEq "S" exSatS ⟨"ES1", "L1", 1⟩ ⟨"SW1", "L2", 2⟩
    [⟨"ES2", "", 0⟩] ⟨"L1", 1, 1, "ES1", "SW1"⟩ (by decide) (by decide)
    (by decide) (by with_unfolding_all decide) (by decide)

/-- Filtering a duplicate-free list whose only satisfying member is `a`
yields `[a]`. -/
theorem filter_single {α : Type} (p : α → Bool) (a : α) :
    ∀ l : List α, l.Nodup → a ∈ l → p a = true →
      (∀ x ∈ l, x ≠ a → p x = false) → l.filter p = [a] := by
  intro l
  induction l with
  | nil => intro _ ha; cases ha
  | cons x xs ih =>
      intro hnd hmem hpa hothers
      rw [List.nodup_cons] at hnd
      rw [List.filter_cons]
      by_cases hxa : x = a
      · subst hxa
        rw [if_pos hpa]
        have hnil : xs.filter p = [] := by
          rw [List.filter_eq_nil_iff]
          intro u hu
          have hua : u ≠ x := fun h => hnd.1 (h ▸ hu)
          simp [hothers u (.tail _ hu) hua]
        rw [hnil]
      · have hmem2 : a ∈ xs := by
          cases List.mem_cons.mp hmem with
          | inl h => exact absurd h.symm hxa
          | inr h => exact h
        have hpx : p x = false := hothers x (.head _) hxa
        simp only [hpx, Bool.false_eq_true, if_false]
        exact ih hnd.2 hmem2 hpa (fun u hu hua => hothers u (.tail _ hu) hua)

/-! ### C7 -/

/-- C7: for a stream that is strictly highest-priority at a hop's queue
(every other stream there is lower-priority) with no same-priority sibling,
the hop bound reduces to the transmission-dominated form
`l_L / linkRate + (size + headerOverhead) / linkRate`, and to
`(size + headerOverhead) / linkRate` when no lower-priority streams are
present. -/
theorem wcd_C7 (g : Graph) (stream : Stream) (node : String) (port : ℤ)
    (hq : (interferingAt g.queue_assignments node port).Nodup)
    (hfound : findStream g.streams stream.name = some stream)
    (hmem : stream.name ∈ interferingAt g.queue_assignments node port)
    (hothers : ∀ n ∈ interferingAt g.queue_assignments node port,
      n ≠ stream.name → isLower g.streams stream.pcp n = true)
    (hr : g.r_link ≠ 0) :
    hop_df g stream node port =
      .ok (((lLAt g stream.pcp node port : ℤ) : ℚ) / g.r_link +
        ((stream.size + g.header_size : ℤ) : ℚ) / g.r_link) ∧
    (lowerAt g stream.pcp node port = [] →
      hop_df g stream node port =
        .ok (((stream.size + g.header_size : ℤ) : ℚ) / g.r_link)) := by
  have hlowof : ∀ n, isLower g.streams stream.pcp n = true →
      isSame g.streams stream.pcp n = false ∧
      isHigher g.streams stream.pcp n = false := by
    intro n hl
    rw [isLower_eq] at hl
    cases hf : findStream g.streams n with
    | none => rw [hf] at hl; cases hl
    | some dn =>
        rw [hf] at hl
        simp at hl
        rw [isSame_eq, isHigher_eq, hf]
        simp [ne_of_lt hl, not_lt_of_gt hl]
  have hps : isSame g.streams stream.pcp stream.name = true := by
    rw [isSame_eq, hfound]; simp
  have hsame : sameAt g stream.pcp node port = [stream.name] := by
    rw [sameAt]
    exact filter_single _ _ _ hq hmem hps
      (fun n hn hna => (hlowof n (hothers n hn hna)).1)
  have hhigh : higherAt g stream.pcp node port = [] := by
    rw [higherAt, List.filter_eq_nil_iff]
    intro n hn
    by_cases hna : n = stream.name
    · subst hna
      rw [isHigher_eq, hfound]
      simp
    · simp [(hlowof n (hothers n hn hna)).2]
  have hrH : rHAt g stream.pcp node port = 0 := by
    rw [rHAt, hhigh]; rfl
  have hbH : bHAt g stream.pcp node port = 0 := by
    rw [bHAt, hhigh]; rfl
  have hbj : bOf g stream.name = stream.size + g.header_size := by
    rw [bOf, hfound]
  have hguard : ¬(g.r_link - (0 : ℚ) = 0 ∨ g.r_link = 0) := by
    rw [sub_zero, or_self]
    exact hr
  have key : hop_df g stream node port =
      .ok (((lLAt g stream.pcp node port : ℤ) : ℚ) / g.r_link +
        ((stream.size + g.header_size : ℤ) : ℚ) / g.r_link) := by
    simp only [hop_df, hsame, tempListAux, hrH, hbH, hguard, if_false,
      List.filter_cons, bne_self_eq_false, List.filter_nil, Bool.false_eq_true,
      if_neg, List.flatMap_nil, List.map_nil, List.sum_nil, hbj,
      List.foldl_nil]
    congr 1
    push_cast
    rw [sub_zero]
    ring
  refine ⟨key, fun hlnil => ?_⟩
  have hlL : lLAt g stream.pcp node port = 0 := by
    rw [lLAt, hlnil]; rfl
  rw [key, hlL]
  norm_num

/-- Witness for C7: the strictly highest-priority stream `H` of the
near-saturation topology at its first hop, where the only other stream is
lower-priority. -/
theorem wcd_C7_witness :
    hop_df exSat2 exSatH "ES1" 1 =
      .ok (((lLAt exSat2 exSatH.pcp "ES1" 1 : ℤ) : ℚ) / exSat2.r_link +
        ((exSatH.size + exSat2.header_size : ℤ) : ℚ) / exSat2.r_link) :=
  (wcd_C7 exSat2 exSatH "ES1" 1 (by decide) (by with_unfolding_all decide)
    (by decide) (by decide) (by with_unfolding_all decide)).1

/-! ### The queue-assignment build as an append sequence -/

/-- Unfolding `appendAt` one entry at a time. -/
theorem appendAt_cons (k1 : QKey) (l : List String)
    (rest : List (QKey × List String)) (k : QKey) (n : String) :
    appendAt ((k1, l) :: rest) k n =
      if k1 = k then (k1, l ++ [n]) :: rest
      else (k1, l) :: appendAt rest k n := by
  rw [appendAt]
  by_cases h : k1 = k
  · simp [h]
  · have hb : (k1 == k) = false := by simpa using h
    simp [hb, h]

/-- Unfolding `lookupQ` one entry at a time. -/
theorem lookupQ_cons (k1 : QKey) (l : List String)
    (rest : List (QKey × List String)) (q : QKey) :
    lookupQ ((k1, l) :: rest) q = if k1 = q then l else lookupQ rest q := by
  rw [lookupQ, lookupQ, List.find?_cons]
  by_cases h : k1 = q
  · simp [h]
  · have hb : (k1 == q) = false := by simpa using h
    simp [hb, h]

/-- Appending a name at a key changes exactly that key's entry, by one
appended name. -/
theorem lookupQ_appendAt :
    ∀ (qa : List (QKey × List String)) (k : QKey) (n : String) (q : QKey),
      lookupQ (appendAt qa k n) q =
        lookupQ qa q ++ (if q = k then [n] else []) := by
  intro qa k n
  induction qa with
  | nil =>
      intro q
      by_cases hq : q = k
      · subst hq; simp [appendAt, lookupQ_cons, lookupQ]
      · simp [appendAt, lookupQ_cons, lookupQ, hq, Ne.symm hq]
  | cons kv rest ih =>
      intro q
      obtain ⟨k1, l⟩ := kv
      rw [appendAt_cons]
      by_cases h1 : k1 = k
      · subst h1
        rw [if_pos rfl, lookupQ_cons, lookupQ_cons]
        by_cases hq : q = k1
        · subst hq; simp
        · simp [Ne.symm hq, hq]
      · rw [if_neg h1, lookupQ_cons, lookupQ_cons]
        by_cases hq : q = k1
        · subst hq
          simp [h1]
        · simp [Ne.symm hq, ih q]

/-- Replaying an append sequence adds, at every key, exactly the names
recorded for that key, in order. -/
theorem lookupQ_qaFold :
    ∀ (es : List (QKey × String)) (qa : List (QKey × List String)) (q : QKey),
      lookupQ (qaFold es qa) q =
        lookupQ qa q ++ ((es.filter (fun kn => kn.1 == q)).map Prod.snd) := by
  intro es
  induction es with
  | nil => intro qa q; simp [qaFold]
  | cons kn es ih =>
      intro qa q
      obtain ⟨k, n⟩ := kn
      have hstep : qaFold ((k, n) :: es) qa = qaFold es (appendAt qa k n) := rfl
      rw [hstep, ih (appendAt qa k n) q, lookupQ_appendAt]
      by_cases hq : q = k
      · subst hq; simp [List.filter_cons]
      · have hb : (k == q) = false := by simpa using (Ne.symm hq)
        simp [List.filter_cons, hb, hq]

/-- The hop loop of the queue assigner is the replay of its hop keys. -/
theorem assignHops_eq (g : Graph) (pcp : ℤ) (name : String) :
    ∀ (path : List PathElem) (prev : String) (qa : List (QKey × List String)),
      assignHops g pcp name prev path qa =
        match hopKeys g pcp prev path with
        | .error er => .error er
        | .ok ks => .ok (qaFold (ks.map (fun k => (k, name))) qa) := by
  intro path
  induction path with
  | nil => intro prev qa; rfl
  | cons a rest ih =>
      cases rest with
      | nil => intro prev qa; rfl
      | cons b rest2 =>
          intro prev qa
          cases hed : get_edge_data g a.node b.node with
          | none => simp [assignHops, hopKeys, hed]
          | some e =>
              cases hks : hopKeys g pcp a.node (b :: rest2) with
              | error er => simp [assignHops, hopKeys, hed, hks, ih]
              | ok ks =>
                  simp [assignHops, hopKeys, hed, hks, ih, qaFold]

/-- The per-stream loop of the queue assigner is the replay of the full
entry sequence. -/
theorem assignAux_eq (g : Graph) :
    ∀ (sp : List (String × List PathElem)) (qa : List (QKey × List String)),
      assignAux g sp qa =
        match queueEntries g sp with
        | .error er => .error er
        | .ok es => .ok (qaFold es qa) := by
  intro sp
  induction sp with
  | nil => intro qa; rfl
  | cons nv rest ih =>
      intro qa
      obtain ⟨name, path⟩ := nv
      cases hfs : findStream g.streams name with
      | none => simp [assignAux, queueEntries, hfs]
      | some stream =>
          rw [show assignAux g ((name, path) :: rest) qa =
            (match assignHops g stream.pcp name "N/A" path qa with
             | .error er => .error er
             | .ok qa1 => assignAux g rest qa1) by simp [assignAux, hfs]]
          rw [assignHops_eq]
          cases hks : hopKeys g stream.pcp "N/A" path with
          | error er => simp [queueEntries, hfs, hks]
          | ok ks =>
              simp only []
              rw [ih]
              cases hqe : queueEntries g rest with
              | error er => simp [queueEntries, hfs, hks, hqe]
              | ok es =>
                  simp only [queueEntries, hfs, hks, hqe]
                  rw [show qaFold (ks.map (fun k => (k, name)) ++ es) qa =
                    qaFold es (qaFold (ks.map (fun k => (k, name))) qa) from
                    List.foldl_append _ _ _ _]

/-! ### C9 amended -/

/-- C9 amended: building the queue index is deterministic but cumulative,
not idempotent: on a fresh index a build appends a fixed per-key name
sequence, so calling `assign_queues` a second time on the already-built
object appends every entry again — after the second call every key's list
is the single-build list concatenated with itself. -/
theorem assign_queues_eq (g : Graph) :
    assign_queues g =
      match queueEntries g g.stream_paths with
      | .error er => .error er
      | .ok es => .ok { g with queue_assignments := qaFold es g.queue_assignments } := by
  rw [assign_queues, assignAux_eq]
  cases queueEntries g g.stream_paths <;> rfl

/-- The edge lookup depends on the graph only through its edge list. -/
theorem get_edge_data_congr (g h : Graph) (he : g.edges = h.edges)
    (u v : String) : get_edge_data g u v = get_edge_data h u v := by
  rw [get_edge_data, get_edge_data, he]

/-- The hop keys of a path depend on the graph only through its edge list. -/
theorem hopKeys_congr (g h : Graph) (he : g.edges = h.edges) (pcp : ℤ) :
    ∀ (path : List PathElem) (prev : String),
      hopKeys g pcp prev path = hopKeys h pcp prev path := by
  intro path
  induction path with
  | nil => intro prev; rfl
  | cons a rest ih =>
      cases rest with
      | nil => intro prev; rfl
      | cons b rest2 =>
          intro prev
          rw [hopKeys, hopKeys, get_edge_data_congr g h he]
          cases get_edge_data h a.node b.node with
          | none => rfl
          | some e => rw [ih a.node]

/-- The entry sequence depends on the graph only through its streams and
edges. -/
theorem queueEntries_congr (g h : Graph) (hs : g.streams = h.streams)
    (he : g.edges = h.edges) :
    ∀ sp, queueEntries g sp = queueEntries h sp := by
  intro sp
  induction sp with
  | nil => rfl
  | cons nv rest ih =>
      obtain ⟨name, path⟩ := nv
      rw [queueEntries, queueEntries, hs]
      cases hfs : findStream h.streams name with
      | none => rfl
      | some stream =>
          simp only []
          rw [hopKeys_congr g h he stream.pcp path "N/A", ih]

/-- C9 amended: building the queue index is deterministic but cumulative,
not idempotent: on a fresh index a build appends a fixed per-key name
sequence, so calling `assign_queues` a second time on the already-built
object appends every entry again — after the second call every key's list
is the single-build list concatenated with itself. -/
theorem wcd_C9_amended (g g1 g2 : Graph)
    (h0 : g.queue_assignments = [])
    (h1 : assign_queues g = .ok g1) (h2 : assign_queues g1 = .ok g2) :
    ∀ q : QKey, lookupQ g2.queue_assignments q =
      lookupQ g1.queue_assignments q ++ lookupQ g1.queue_assignments q := by
  intro q
  rw [assign_queues_eq] at h1
  cases hqe : queueEntries g g.stream_paths with
  | error er => rw [hqe] at h1; cases h1
  | ok es =>
      rw [hqe] at h1
      injection h1 with h1e
      have hg1qa : g1.queue_assignments = qaFold es g.queue_assignments := by
        rw [← h1e]
      have hg1sp : g1.stream_paths = g.stream_paths := by
        rw [← h1e]
      have hqe1 : queueEntries g1 g1.stream_paths = .ok es := by
        rw [hg1sp, queueEntries_congr g1 g (by rw [← h1e]) (by rw [← h1e])]
        exact hqe
      rw [assign_queues_eq] at h2
      rw [hqe1] at h2
      injection h2 with h2e
      have hg2qa : g2.queue_assignments = qaFold es g1.queue_assignments := by
        rw [← h2e]
      rw [hg2qa, hg1qa, h0, lookupQ_qaFold, lookupQ_qaFold]
      simp [lookupQ]

/-! ### Membership characterization of the built index -/

/-- Unfolding `interferingAt` one dictionary entry at a time. -/
theorem interferingAt_cons (k1 : QKey) (l : List String)
    (rest : List (QKey × List String)) (node : String) (port : ℤ) :
    interferingAt ((k1, l) :: rest) node port =
      (if k1.node = node ∧ k1.port = port then l else []) ++
        interferingAt rest node port := by
  rw [interferingAt, interferingAt, List.filter_cons]
  by_cases h : k1.node = node ∧ k1.port = port
  · have hb : (k1.node == node && k1.port == port) = true := by
      simp [h.1, h.2]
    simp [hb, h]
  · have hb : (k1.node == node && k1.port == port) = false := by
      cases hn : (k1.node == node) with
      | false => simp
      | true =>
          cases hp : (k1.port == port) with
          | false => simp
          | true =>
              exact absurd ⟨by simpa using hn, by simpa using hp⟩ h
    simp [hb, h]

/-- Membership in the gathered streams after one append. -/
theorem mem_interferingAt_appendAt :
    ∀ (qa : List (QKey × List String)) (k : QKey) (m n : String)
      (node : String) (port : ℤ),
      n ∈ interferingAt (appendAt qa k m) node port ↔
        n ∈ interferingAt qa node port ∨
          (n = m ∧ k.node = node ∧ k.port = port) := by
  intro qa k m
  induction qa with
  | nil =>
      intro n node port
      rw [show appendAt [] k m = [(k, [m])] from rfl, interferingAt_cons]
      by_cases h : k.node = node ∧ k.port = port
      · rw [if_pos h]
        constructor
        · intro hl
          rcases List.mem_append.mp hl with hl | hl
          · exact Or.inr ⟨List.mem_singleton.mp hl, h⟩
          · simp [interferingAt] at hl
        · rintro (hl | ⟨hl, _⟩)
          · simp [interferingAt] at hl
          · exact List.mem_append_left _ (hl ▸ List.mem_singleton_self m)
      · rw [if_neg h]
        constructor
        · intro hl
          rcases List.mem_append.mp hl with hl | hl
          · cases hl
          · simp [interferingAt] at hl
        · rintro (hl | ⟨_, hk⟩)
          · simp [interferingAt] at hl
          · exact absurd hk h
  | cons kv rest ih =>
      intro n node port
      obtain ⟨k1, l⟩ := kv
      rw [appendAt_cons]
      by_cases h1 : k1 = k
      · subst h1
        rw [if_pos rfl, interferingAt_cons, interferingAt_cons]
        by_cases h : k1.node = node ∧ k1.port = port
        · rw [if_pos h, if_pos h]
          constructor
          · intro hl
            rcases List.mem_append.mp hl with hl | hl
            · rcases List.mem_append.mp hl with hl | hl
              · exact Or.inl (List.mem_append_left _ hl)
              · exact Or.inr ⟨List.mem_singleton.mp hl, h⟩
            · exact Or.inl (List.mem_append_right _ hl)
          · rintro (hl | ⟨hl, _⟩)
            · rcases List.mem_append.mp hl with hl | hl
              · exact List.mem_append_left _ (List.mem_append_left _ hl)
              · exact List.mem_append_right _ hl
            · exact List.mem_append_left _
                (List.mem_append_right _ (hl ▸ List.mem_singleton_self m))
        · rw [if_neg h, if_neg h]
          constructor
          · intro hl; exact Or.inl hl
          · rintro (hl | ⟨_, hk⟩)
            · exact hl
            · exact absurd hk h
      · rw [if_neg h1, interferingAt_cons, interferingAt_cons]
        by_cases h : k1.node = node ∧ k1.port = port
        · rw [if_pos h]
          constructor
          · intro hl
            rcases List.mem_append.mp hl with hl | hl
            · exact Or.inl (List.mem_append_left _ hl)
            · rcases (ih n node port).mp hl with hl | hl
              · exact Or.inl (List.mem_append_right _ hl)
              · exact Or.inr hl
          · rintro (hl | hl)
            · rcases List.mem_append.mp hl with hl | hl
              · exact List.mem_append_left _ hl
              · exact List.mem_append_right _ ((ih n node port).mpr (Or.inl hl))
            · exact List.mem_append_right _ ((ih n node port).mpr (Or.inr hl))
        · rw [if_neg h]
          simpa using ih n node port

/-- Membership in the gathered streams after replaying an append sequence. -/
theorem mem_interferingAt_qaFold :
    ∀ (es : List (QKey × String)) (qa : List (QKey × List String))
      (n node : String) (port : ℤ),
      n ∈ interferingAt (qaFold es qa) node port ↔
        n ∈ interferingAt qa node port ∨
          ∃ k : QKey, (k, n) ∈ es ∧ k.node = node ∧ k.port = port := by
  intro es
  induction es with
  | nil => intro qa n node port; simp [qaFold]
  | cons kn es ih =>
      intro qa n node port
      obtain ⟨k, m⟩ := kn
      rw [show qaFold ((k, m) :: es) qa = qaFold es (appendAt qa k m) from rfl,
        ih, mem_interferingAt_appendAt]
      constructor
      · rintro ((hb | ⟨hnm, hk1, hk2⟩) | ⟨k2, hk2, hmatch⟩)
        · exact Or.inl hb
        · subst hnm; exact Or.inr ⟨k, .head _, hk1, hk2⟩
        · exact Or.inr ⟨k2, .tail _ hk2, hmatch⟩
      · rintro (hb | ⟨k2, hk2, hm1, hm2⟩)
        · exact Or.inl (Or.inl hb)
        · cases hk2 with
          | head => exact Or.inl (Or.inr ⟨rfl, hm1, hm2⟩)
          | tail _ htl => exact Or.inr ⟨k2, htl, hm1, hm2⟩

/-- The keys a path contributes are exactly its hops: a key with a given
`(node, port)` exists among the hop keys iff the path occupies that
`(node, port)`. -/
theorem hopKeys_mem (g : Graph) (pcp : ℤ) :
    ∀ (path : List PathElem) (prev : String) (ks : List QKey),
      hopKeys g pcp prev path = .ok ks →
      ∀ (node : String) (port : ℤ),
        ((∃ k ∈ ks, k.node = node ∧ k.port = port) ↔
          occupiesHop g node port path) := by
  intro path
  induction path with
  | nil =>
      intro prev ks h node port
      simp only [hopKeys] at h
      injection h with h2
      subst h2
      simp [occupiesHop, adjPairs]
  | cons a rest ih =>
      cases rest with
      | nil =>
          intro prev ks h node port
          simp only [hopKeys] at h
          injection h with h2
          subst h2
          simp [occupiesHop, adjPairs]
      | cons b rest2 =>
          intro prev ks h node port
          simp only [hopKeys] at h
          cases hed : get_edge_data g a.node b.node with
          | none => rw [hed] at h; cases h
          | some e =>
              rw [hed] at h
              cases hks2 : hopKeys g pcp a.node (b :: rest2) with
              | error er => rw [hks2] at h; cases h
              | ok ks2 =>
                  rw [hks2] at h
                  simp only [] at h
                  injection h with h2
                  subst h2
                  have ihh := ih a.node ks2 hks2 node port
                  constructor
                  · rintro ⟨k, hk, hkn, hkp⟩
                    cases hk with
                    | head =>
                        refine ⟨(a, b), by simp [adjPairs], ?_⟩
                        rw [hopMatches, hed]
                        simp only [Bool.and_eq_true, beq_iff_eq]
                        exact ⟨hkn, hkp⟩
                    | tail _ htl =>
                        obtain ⟨pr, hpr, hm⟩ := ihh.mp ⟨k, htl, hkn, hkp⟩
                        exact ⟨pr, by simp [adjPairs, hpr], hm⟩
                  · rintro ⟨pr, hpr, hm⟩
                    rw [show adjPairs (a :: b :: rest2) =
                      (a, b) :: adjPairs (b :: rest2) from rfl] at hpr
                    cases hpr with
                    | head =>
                        rw [hopMatches, hed] at hm
                        simp only [Bool.and_eq_true, beq_iff_eq] at hm
                        exact ⟨⟨a.node, prev, resolvePort e a.node, pcp⟩,
                          .head _, hm.1, hm.2⟩
                    | tail _ htl =>
                        obtain ⟨k, hk, hkn, hkp⟩ := ihh.mpr ⟨pr, htl, hm⟩
                        exact ⟨k, .tail _ hk, hkn, hkp⟩

/-- Each entry of the path dictionary contributes all its hop keys to the
entry sequence. -/
theorem queueEntries_entry (g : Graph) :
    ∀ (sp : List (String × List PathElem)) (es : List (QKey × String)),
      queueEntries g sp = .ok es →
      ∀ (n : String) (p : List PathElem), (n, p) ∈ sp →
        ∃ (stream : Stream) (ks : List QKey),
          findStream g.streams n = some stream ∧
          hopKeys g stream.pcp "N/A" p = .ok ks ∧
          ∀ k ∈ ks, (k, n) ∈ es := by
  intro sp
  induction sp with
  | nil => intro es _ n p hmem; cases hmem
  | cons nv rest ih =>
      intro es h n p hmem
      obtain ⟨name, path⟩ := nv
      simp only [queueEntries] at h
      cases hfs : findStream g.streams name with
      | none => rw [hfs] at h; cases h
      | some stream =>
          rw [hfs] at h
          simp only [] at h
          cases hks : hopKeys g stream.pcp "N/A" path with
          | error er => rw [hks] at h; cases h
          | ok ks =>
              rw [hks] at h
              cases hqe : queueEntries g rest with
              | error er => rw [hqe] at h; cases h
              | ok es2 =>
                  rw [hqe] at h
                  simp only [] at h
                  injection h with h2
                  subst h2
                  cases hmem with
                  | head =>
                      exact ⟨stream, ks, hfs, hks, fun k hk =>
                        List.mem_append_left _ (List.mem_map_of_mem _ hk)⟩
                  | tail _ htl =>
                      obtain ⟨st2, ks2, hf2, hk2, hmem2⟩ := ih es2 hqe n p htl
                      exact ⟨st2, ks2, hf2, hk2, fun k hk =>
                        List.mem_append_right _ (hmem2 k hk)⟩

/-- An entry `(k, n)` of the entry sequence comes from exactly the hops of
a path stored under `n`. -/
theorem queueEntries_mem (g : Graph) :
    ∀ (sp : List (String × List PathElem)) (es : List (QKey × String)),
      queueEntries g sp = .ok es →
      ∀ (k : QKey) (n : String),
        ((k, n) ∈ es ↔
          ∃ (p : List PathElem) (stream : Stream) (ks : List QKey),
            (n, p) ∈ sp ∧ findStream g.streams n = some stream ∧
            hopKeys g stream.pcp "N/A" p = .ok ks ∧ k ∈ ks) := by
  intro sp
  induction sp with
  | nil =>
      intro es h k n
      simp only [queueEntries] at h
      injection h with h2
      subst h2
      simp
  | cons nv rest ih =>
      intro es h k n
      obtain ⟨name, path⟩ := nv
      simp only [queueEntries] at h
      cases hfs : findStream g.streams name with
      | none => rw [hfs] at h; cases h
      | some stream =>
          rw [hfs] at h
          simp only [] at h
          cases hks : hopKeys g stream.pcp "N/A" path with
          | error er => rw [hks] at h; cases h
          | ok ks =>
              rw [hks] at h
              cases hqe : queueEntries g rest with
              | error er => rw [hqe] at h; cases h
              | ok es2 =>
                  rw [hqe] at h
                  simp only [] at h
                  injection h with h2
                  subst h2
                  rw [List.mem_append]
                  constructor
                  · rintro (hmap | hrest)
                    · obtain ⟨k2, hk2, hpair⟩ := List.mem_map.mp hmap
                      injection hpair with hpk hpn
                      subst hpk
                      subst hpn
                      exact ⟨path, stream, ks, .head _, hfs, hks, hk2⟩
                    · obtain ⟨p, st2, ks2, hmem2, hf2, hk2, hkk⟩ :=
                        (ih es2 hqe k n).mp hrest
                      exact ⟨p, st2, ks2, .tail _ hmem2, hf2, hk2, hkk⟩
                  · rintro ⟨p, st2, ks2, hmem2, hf2, hk2, hkk⟩
                    cases hmem2 with
                    | head =>
                        rw [hf2] at hfs
                        injection hfs with hst
                        subst hst
                        rw [hk2] at hks
                        injection hks with hkse
                        subst hkse
                        exact Or.inl (List.mem_map_of_mem _ hkk)
                    | tail _ htl =>
                        exact Or.inr ((ih es2 hqe k n).mpr
                          ⟨p, st2, ks2, htl, hf2, hk2, hkk⟩)

/-- A successful dictionary lookup means the pair is stored. -/
theorem lookupPath_mem {sp : List (String × List PathElem)} {n : String}
    {p : List PathElem} (h : lookupPath sp n = some p) : (n, p) ∈ sp := by
  rw [lookupPath] at h
  cases hf : sp.find? (fun kv => kv.1 == n) with
  | none => rw [hf] at h; cases h
  | some kv =>
      rw [hf] at h
      injection h with h2
      have hm := List.mem_of_find?_eq_some hf
      have hp := List.find?_some hf
      obtain ⟨k1, v1⟩ := kv
      simp only [beq_iff_eq] at hp
      subst hp
      subst h2
      exact hm

/-- With duplicate-free keys, a stored pair is what the dictionary lookup
returns. -/
theorem mem_lookupPath {sp : List (String × List PathElem)}
    (hnd : (sp.map Prod.fst).Nodup) {n : String} {p : List PathElem}
    (h : (n, p) ∈ sp) : lookupPath sp n = some p := by
  induction sp with
  | nil => cases h
  | cons kv rest ih =>
      rw [List.map_cons, List.nodup_cons] at hnd
      cases h with
      | head =>
          simp [lookupPath, List.find?_cons]
      | tail _ htl =>
          have hk : kv.1 ≠ n := by
            intro hk
            exact hnd.1 (hk ▸ List.mem_map_of_mem Prod.fst htl)
          have hb : (kv.1 == n) = false := by simpa using hk
          rw [lookupPath, List.find?_cons, hb]
          exact ih hnd.2 htl

/-! ### C3 amended -/

/-- C3 amended: the queue index key is the quadruple
`(node, previousNode, egressPort, priority)` (see the counterexample), and
querying the built index at `(node, port)` returns exactly the streams —
across all priorities and previous nodes — that occupy that node and egress
port on some hop of their resolved path. -/
theorem wcd_C3_amended (g g1 : Graph)
    (h0 : g.queue_assignments = [])
    (hnd : (g.stream_paths.map Prod.fst).Nodup)
    (h1 : assign_queues g = .ok g1) :
    ∀ (n node : String) (port : ℤ),
      n ∈ interferingAt g1.queue_assignments node port ↔
        ∃ path, lookupPath g.stream_paths n = some path ∧
          occupiesHop g node port path := by
  intro n node port
  rw [assign_queues_eq] at h1
  cases hqe : queueEntries g g.stream_paths with
  | error er => rw [hqe] at h1; cases h1
  | ok es =>
      rw [hqe] at h1
      injection h1 with h1e
      have hqa : g1.queue_assignments = qaFold es g.queue_assignments := by
        rw [← h1e]
      rw [hqa, h0, mem_interferingAt_qaFold]
      constructor
      · rintro (hbase | ⟨k, hk, hkn, hkp⟩)
        · simp [interferingAt] at hbase
        · obtain ⟨p, stream, ks, hmem, hfs, hks, hkks⟩ :=
            (queueEntries_mem g _ _ hqe k n).mp hk
          refine ⟨p, mem_lookupPath hnd hmem, ?_⟩
          exact (hopKeys_mem g stream.pcp p "N/A" ks hks node port).mp
            ⟨k, hkks, hkn, hkp⟩
      · rintro ⟨p, hlp, hocc⟩
        have hmem := lookupPath_mem hlp
        obtain ⟨stream, ks, hfs, hks, hkes⟩ :=
          queueEntries_entry g _ _ hqe n p hmem
        obtain ⟨k, hkks, hkn, hkp⟩ :=
          (hopKeys_mem g stream.pcp p "N/A" ks hks node port).mpr hocc
        exact Or.inr ⟨k, hkes k hkks, hkn, hkp⟩

/-- Witness for C3 amended: in the Y topology, `S2` is retrieved at
`(SW1, port 3)` exactly because its path occupies that egress. -/
theorem wcd_C3_amended_witness :
    "S2" ∈ interferingAt exY2.queue_assignments "SW1" 3 ↔
      ∃ path, lookupPath exY1.stream_paths "S2" = some path ∧
        occupiesHop exY1 "SW1" 3 path :=
  wcd_C3_amended exY1 exY2 (by decide) (by decide)
    (by with_unfolding_all decide) "S2" "SW1" 3

/-- Witness for C9 amended: the doubled index of the two-hop scenario at
one of its keys. -/
theorem wcd_C9_amended_witness :
    lookupQ [(⟨"ES1", "N/A", 1, 7⟩, ["S1", "S1"]),
        (⟨"SW1", "ES1", 2, 7⟩, ["S1", "S1"])] ⟨"ES1", "N/A", 1, 7⟩ =
      lookupQ exTwoHop2.queue_assignments ⟨"ES1", "N/A", 1, 7⟩ ++
        lookupQ exTwoHop2.queue_assignments ⟨"ES1", "N/A", 1, 7⟩ :=
  wcd_C9_amended exTwoHop1 exTwoHop2
    { exTwoHop2 with queue_assignments :=
      [(⟨"ES1", "N/A", 1, 7⟩, ["S1", "S1"]),
       (⟨"SW1", "ES1", 2, 7⟩, ["S1", "S1"])] }
    (by decide) (by with_unfolding_all decide)
    (by with_unfolding_all decide) ⟨"ES1", "N/A", 1, 7⟩

/-! ### C10 -/

/-- The only error the `temp_list` loop can produce is the caught division
error. -/
theorem tempListAux_error (g : Graph) (bH lL : ℤ) (rH : ℚ)
    (same : List String) :
    ∀ (js : List String) (er : Err),
      tempListAux g bH lL rH same js = .error er → er = .divZero := by
  intro js
  induction js with
  | nil => intro er h; simp only [tempListAux] at h; cases h
  | cons j js ih =>
      intro er h
      simp only [tempListAux] at h
      split at h
      · injection h with h2; exact h2.symm
      · cases ht : tempListAux g bH lL rH same js with
        | error er2 =>
            rw [ht] at h
            simp only [] at h
            injection h with h2
            subst h2
            exact ih er2 ht
        | ok l => rw [ht] at h; cases h

/-- A hop bound can fail with the empty-maximization `ValueError` only when
the same-priority list at that hop is empty. -/
theorem hop_df_emptyMax {g : Graph} {stream : Stream} {node : String}
    {port : ℤ} (h : hop_df g stream node port = .error .emptyMax) :
    sameAt g stream.pcp node port = [] := by
  simp only [hop_df] at h
  cases ht : tempListAux g (bHAt g stream.pcp node port)
      (lLAt g stream.pcp node port) (rHAt g stream.pcp node port)
      (sameAt g stream.pcp node port) (sameAt g stream.pcp node port) with
  | error er =>
      rw [ht] at h
      injection h with h2
      have := tempListAux_error g _ _ _ _ _ _ ht
      rw [this] at h2
      cases h2
  | ok temps =>
      rw [ht] at h
      cases temps with
      | nil =>
          have := tempListAux_ok g _ _ _ _ _ _ ht
          exact List.map_eq_nil_iff.mp this.symm
      | cons x xs => simp only [] at h; cases h

/-- The accumulating hop loop never aborts with the empty-maximization
error as long as every hop it visits has a nonempty same-priority list. -/
theorem computeHops_no_emptyMax (g : Graph) (stream : Stream) :
    ∀ (path2 : List PathElem) (acc : ℚ),
      (∀ pr ∈ adjPairs path2, ∀ e,
        get_edge_data g pr.1.node pr.2.node = some e →
        sameAt g stream.pcp pr.1.node (resolvePort e pr.1.node) ≠ []) →
      computeHops g stream path2 acc ≠ .error .emptyMax := by
  intro path2
  induction path2 with
  | nil => intro acc _ hcon; cases hcon
  | cons a rest ih =>
      cases rest with
      | nil => intro acc _ hcon; cases hcon
      | cons b rest2 =>
          intro acc hall
          simp only [computeHops]
          cases hed : get_edge_data g a.node b.node with
          | none => simp [hopDelay, hed]
          | some e =>
              have hne := hall (a, b) (by simp [adjPairs]) e hed
              cases hdf : hop_df g stream a.node (resolvePort e a.node) with
              | error er =>
                  have her : er ≠ .emptyMax := by
                    intro hc
                    subst hc
                    exact hne (hop_df_emptyMax hdf)
                  simp only [hopDelay, hed, hdf]
                  intro hcon
                  injection hcon with h2
                  exact her h2
              | ok df =>
                  simp only [hopDelay, hed, hdf]
                  exact ih _
                    (fun pr hpr e2 he2 => hall pr (by
                      rw [show adjPairs (a :: b :: rest2) =
                        (a, b) :: adjPairs (b :: rest2) from rfl]
                      exact .tail _ hpr) e2 he2)

/-- C10: for a stream with a stored path, queue assignment has recorded the
stream itself at every hop of that path, so the same-priority candidate set
the delay engine retrieves at each hop contains the stream and the per-hop
maximization is never over an empty collection: the computation cannot fail
with the empty-`max` `ValueError`. -/
theorem wcd_C10 (g g1 : Graph) (sn : String) (path : List PathElem)
    (stream : Stream)
    (h1 : assign_queues g = .ok g1)
    (hlp : lookupPath g.stream_paths sn = some path)
    (hfs : findStream g.streams sn = some stream) :
    (∀ pr ∈ adjPairs path, ∀ e,
      get_edge_data g pr.1.node pr.2.node = some e →
      sn ∈ sameAt g1 stream.pcp pr.1.node (resolvePort e pr.1.node)) ∧
    compute_worst_case_delay g1 sn ≠ .error .emptyMax := by
  rw [assign_queues_eq] at h1
  cases hqe : queueEntries g g.stream_paths with
  | error er => rw [hqe] at h1; cases h1
  | ok es =>
      rw [hqe] at h1
      injection h1 with h1e
      have hqa : g1.queue_assignments = qaFold es g.queue_assignments := by
        rw [← h1e]
      have hsp : g1.stream_paths = g.stream_paths := by rw [← h1e]
      have hstr : g1.streams = g.streams := by rw [← h1e]
      have hedg : g1.edges = g.edges := by rw [← h1e]
      have hmem := lookupPath_mem hlp
      obtain ⟨stream2, ks, hfs2, hks, hkes⟩ :=
        queueEntries_entry g _ _ hqe sn path hmem
      rw [hfs] at hfs2
      injection hfs2 with hst
      subst hst
      have hmemAt : ∀ pr ∈ adjPairs path, ∀ e,
          get_edge_data g pr.1.node pr.2.node = some e →
          sn ∈ sameAt g1 stream.pcp pr.1.node (resolvePort e pr.1.node) := by
        intro pr hpr e hed
        have hocc : occupiesHop g pr.1.node (resolvePort e pr.1.node) path :=
          ⟨pr, hpr, by rw [hopMatches, hed]; simp⟩
        obtain ⟨k, hkks, hkn, hkp⟩ :=
          (hopKeys_mem g stream.pcp path "N/A" ks hks _ _).mpr hocc
        have hint : sn ∈ interferingAt g1.queue_assignments pr.1.node
            (resolvePort e pr.1.node) := by
          rw [hqa, mem_interferingAt_qaFold]
          exact Or.inr ⟨k, hkes k hkks, hkn, hkp⟩
        rw [sameAt]
        apply List.mem_filter.mpr
        refine ⟨hint, ?_⟩
        rw [isSame_eq, hstr, hfs]
        simp
      refine ⟨hmemAt, ?_⟩
      have hlp1 : lookupPath g1.stream_paths sn = some path := by
        rw [hsp]; exact hlp
      have hfs1 : findStream g1.streams sn = some stream := by
        rw [hstr]; exact hfs
      have hcw : compute_worst_case_delay g1 sn =
          computeHops g1 stream path 0 := by
        simp [compute_worst_case_delay, hlp1, hfs1]
      rw [hcw]
      apply computeHops_no_emptyMax
      intro pr hpr e hed
      have hed2 : get_edge_data g pr.1.node pr.2.node = some e := by
        rw [get_edge_data_congr g g1 hedg.symm]
        exact hed
      exact List.ne_nil_of_mem (hmemAt pr hpr e hed2)

/-- Witness for C10: in the two-hop scenario the single stream is its own
same-priority sibling at each hop and the computation does not abort. -/
theorem wcd_C10_witness :
    compute_worst_case_delay exTwoHop2 "S1" ≠ .error .emptyMax :=
  (wcd_C10 exTwoHop1 exTwoHop2 "S1"
    [⟨"ES1", "L1", 1⟩, ⟨"SW1", "L2", 2⟩, ⟨"ES2", "", 0⟩] exS1
    (by with_unfolding_all decide) (by decide)
    (by with_unfolding_all decide)).2

/-! ### Lemmas for replacing one stream in the stream list -/

/-- Looking up any other name is unaffected by replacing a stream with one
of the same name. -/
theorem findStream_append_replace (l1 l2 : List Stream) (h h2 : Stream)
    (hname : h2.name = h.name) (n : String) (hn : n ≠ h.name) :
    findStream (l1 ++ h :: l2) n = findStream (l1 ++ h2 :: l2) n := by
  induction l1 with
  | nil =>
      rw [List.nil_append, List.nil_append, findStream_cons, findStream_cons,
        hname]
      have hb : ¬(h.name = n) := fun hc => hn hc.symm
      rw [if_neg hb, if_neg hb]
  | cons t ts ih =>
      rw [List.cons_append, List.cons_append, findStream_cons, findStream_cons]
      by_cases ht : t.name = n
      · rw [if_pos ht, if_pos ht]
      · rw [if_neg ht, if_neg ht]
        exact ih

/-- Filtering by any other name is unaffected by replacing a stream with
one of the same name. -/
theorem matchName_append_replace (l1 l2 : List Stream) (h h2 : Stream)
    (hname : h2.name = h.name) (n : String) (hn : n ≠ h.name) :
    matchName (l1 ++ h :: l2) n = matchName (l1 ++ h2 :: l2) n := by
  induction l1 with
  | nil =>
      rw [List.nil_append, List.nil_append, matchName_cons, matchName_cons,
        hname]
      have hb : ¬(h.name = n) := fun hc => hn hc.symm
      rw [if_neg hb, if_neg hb]
  | cons t ts ih =>
      rw [List.cons_append, List.cons_append, matchName_cons, matchName_cons]
      by_cases ht : t.name = n
      · rw [if_pos ht, if_pos ht, ih]
      · rw [if_neg ht, if_neg ht]
        exact ih

/-- A stream whose name does not occur earlier is what the lookup finds. -/
theorem findStream_append_self (l1 l2 : List Stream) (h : Stream)
    (hn : h.name ∉ l1.map Stream.name) :
    findStream (l1 ++ h :: l2) h.name = some h := by
  induction l1 with
  | nil => rw [List.nil_append, findStream_cons, if_pos rfl]
  | cons t ts ih =>
      rw [List.cons_append, findStream_cons]
      have h1 : ¬(t.name = h.name) := fun hc =>
        hn (by rw [List.map_cons, ← hc]; exact .head _)
      rw [if_neg h1]
      exact ih (fun hc => hn (by rw [List.map_cons]; exact .tail _ hc))

/-- Every stream gathered through the name filter belongs to the stream
list. -/
theorem mem_flatMap_matchName {streams : List Stream} {ns : List String}
    {s : Stream} (h : s ∈ ns.flatMap (matchName streams)) : s ∈ streams := by
  obtain ⟨n, _, hs⟩ := List.mem_flatMap.mp h
  exact List.mem_of_mem_filter hs

/-- Summing a per-stream quantity over gathered names is monotone in the
per-name sums. -/
theorem flatMap_matchName_sum_le {M : Type} [OrderedAddCommMonoid M]
    (s1 s2 : List Stream) (f1 f2 : Stream → M) :
    ∀ ns : List String,
      (∀ n ∈ ns,
        ((matchName s1 n).map f1).sum ≤ ((matchName s2 n).map f2).sum) →
      ((ns.flatMap (matchName s1)).map f1).sum ≤
        ((ns.flatMap (matchName s2)).map f2).sum := by
  intro ns
  induction ns with
  | nil => intro _; simp
  | cons n ns ih =>
      intro hall
      rw [List.flatMap_cons, List.flatMap_cons, List.map_append,
        List.map_append, List.sum_append, List.sum_append]
      exact add_le_add (hall n (.head _)) (ih fun m hm => hall m (.tail _ hm))

/-- Mapping a per-stream quantity over gathered names is pointwise
congruent in the per-name expansions. -/
theorem flatMap_matchName_congr {α : Type} (s1 s2 : List Stream)
    (f1 f2 : Stream → α) :
    ∀ ns : List String,
      (∀ n ∈ ns, (matchName s1 n).map f1 = (matchName s2 n).map f2) →
      (ns.flatMap (matchName s1)).map f1 =
        (ns.flatMap (matchName s2)).map f2 := by
  intro ns
  induction ns with
  | nil => intro _; rfl
  | cons n ns ih =>
      intro hall
      rw [List.flatMap_cons, List.flatMap_cons, List.map_append,
        List.map_append, hall n (.head _), ih fun m hm => hall m (.tail _ hm)]

/-- The base value bounds a left fold of `max`. -/
theorem le_foldl_max {α : Type} [LinearOrder α] :
    ∀ (l : List α) (b : α), b ≤ l.foldl max b := by
  intro l
  induction l with
  | nil => intro b; exact le_refl b
  | cons x xs ih =>
      intro b
      rw [List.foldl_cons]
      exact le_trans (le_max_left b x) (ih (max b x))

/-- A left fold of `max` is monotone in the base and in the list,
pointwise. -/
theorem foldl_max_mono {α : Type} [LinearOrder α] :
    ∀ {xs ys : List α}, List.Forall₂ (· ≤ ·) xs ys →
      ∀ {x y : α}, x ≤ y → xs.foldl max x ≤ ys.foldl max y := by
  intro xs ys hf
  induction hf with
  | nil => intro x y hxy; exact hxy
  | cons hab _ ih =>
      intro x y hxy
      rw [List.foldl_cons, List.foldl_cons]
      exact ih (max_le_max hxy hab)

/-- Pointwise bounded maps are `Forall₂`-related. -/
theorem forall₂_map_le {α β : Type} [Preorder β] (f g : α → β) :
    ∀ l : List α, (∀ a ∈ l, f a ≤ g a) →
      List.Forall₂ (· ≤ ·) (l.map f) (l.map g) := by
  intro l
  induction l with
  | nil => intro _; exact .nil
  | cons a l ih =>
      intro hall
      exact .cons (hall a (.head _)) (ih fun b hb => hall b (.tail _ hb))

/-- The Python `max` over a mapped list is monotone in the function. -/
theorem pymaxQ_map_mono (f g : String → ℚ) (l : List String)
    (hall : ∀ a ∈ l, f a ≤ g a) : pymaxQ (l.map f) ≤ pymaxQ (l.map g) := by
  cases l with
  | nil => exact le_refl 0
  | cons a l =>
      rw [List.map_cons, List.map_cons]
      exact foldl_max_mono
        (forall₂_map_le f g l (fun b hb => hall b (.tail _ hb)))
        (hall a (.head _))

/-- The Python `max(l or [0])` of nonnegative values is nonnegative. -/
theorem pymaxZ_nonneg (l : List ℤ) (h : ∀ x ∈ l, 0 ≤ x) : 0 ≤ pymaxZ l := by
  cases l with
  | nil => exact le_refl 0
  | cons x xs => exact le_trans (h x (.head _)) (le_foldl_max xs x)

/-! ### C8 -/

/-- C8: speeding up a single higher-priority stream — shrinking its period
and/or growing its frame, keeping its name and priority, while the
higher-priority aggregate stays below the link rate — cannot decrease the
evaluated stream's hop bound `d_f`. -/
theorem wcd_C8 (G1 G2 : Graph) (stream : Stream) (node : String) (port : ℤ)
    (l1 l2 : List Stream) (h h2 : Stream)
    (hs1 : G1.streams = l1 ++ h :: l2)
    (hg2 : G2 = { G1 with streams := l1 ++ h2 :: l2 })
    (hname : h2.name = h.name) (hpcp : h2.pcp = h.pcp)
    (hhigh : stream.pcp < h.pcp)
    (hsize : h.size ≤ h2.size)
    (hper : h2.period ≤ h.period) (hper2 : 0 < h2.period)
    (hnd : (G1.streams.map Stream.name).Nodup)
    (hpos : ∀ s ∈ G1.streams, 0 ≤ s.size + G1.header_size ∧ 0 < s.period)
    (hrl : rHAt G2 stream.pcp node port < G2.r_link)
    (d1 d2 : ℚ)
    (hok1 : hop_df G1 stream node port = .ok d1)
    (hok2 : hop_df G2 stream node port = .ok d2) :
    d1 ≤ d2 := by
  have hG2q : G2.queue_assignments = G1.queue_assignments := by rw [hg2]
  have hG2h : G2.header_size = G1.header_size := by rw [hg2]
  have hG2r : G2.r_link = G1.r_link := by rw [hg2]
  have hG2s : G2.streams = l1 ++ h2 :: l2 := by rw [hg2]
  have hnd1 : ((l1 ++ h :: l2).map Stream.name).Nodup := by rw [← hs1]; exact hnd
  have hpos1 : ∀ s ∈ l1 ++ h :: l2, 0 ≤ s.size + G1.header_size ∧ 0 < s.period := by
    rw [← hs1]; exact hpos
  have hnotl1 : h.name ∉ l1.map Stream.name := by
    rw [List.map_append] at hnd1
    intro hc
    exact (List.disjoint_of_nodup_append hnd1) hc
      (by rw [List.map_cons]; exact .head _)
  have hfind1 : findStream G1.streams h.name = some h := by
    rw [hs1]; exact findStream_append_self l1 l2 h hnotl1
  have hfind2 : findStream G2.streams h.name = some h2 := by
    rw [hG2s, ← hname]
    exact findStream_append_self l1 l2 h2 (by rw [hname]; exact hnotl1)
  have hfr : ∀ n, n ≠ h.name → findStream G1.streams n = findStream G2.streams n := by
    intro n hn
    rw [hs1, hG2s]
    exact findStream_append_replace l1 l2 h h2 hname n hn
  have hmr : ∀ n, n ≠ h.name → matchName G1.streams n = matchName G2.streams n := by
    intro n hn
    rw [hs1, hG2s]
    exact matchName_append_replace l1 l2 h h2 hname n hn
  have hclassH : ∀ n, isHigher G2.streams stream.pcp n =
      isHigher G1.streams stream.pcp n := by
    intro n
    by_cases hn : n = h.name
    · subst hn
      rw [isHigher_eq, isHigher_eq, hfind1, hfind2]
      simp [hpcp]
    · rw [isHigher_eq, isHigher_eq, hfr n hn]
  have hclassS : ∀ n, isSame G2.streams stream.pcp n =
      isSame G1.streams stream.pcp n := by
    intro n
    by_cases hn : n = h.name
    · subst hn
      rw [isSame_eq, isSame_eq, hfind1, hfind2]
      simp [hpcp]
    · rw [isSame_eq, isSame_eq, hfr n hn]
  have hclassL : ∀ n, isLower G2.streams stream.pcp n =
      isLower G1.streams stream.pcp n := by
    intro n
    by_cases hn : n = h.name
    · subst hn
      rw [isLower_eq, isLower_eq, hfind1, hfind2]
      simp [hpcp]
    · rw [isLower_eq, isLower_eq, hfr n hn]
  have hhigherL : higherAt G2 stream.pcp node port =
      higherAt G1 stream.pcp node port := by
    rw [higherAt, higherAt, hG2q]
    exact List.filter_congr (fun n _ => hclassH n)
  have hsameL : sameAt G2 stream.pcp node port =
      sameAt G1 stream.pcp node port := by
    rw [sameAt, sameAt, hG2q]
    exact List.filter_congr (fun n _ => hclassS n)
  have hlowerL : lowerAt G2 stream.pcp node port =
      lowerAt G1 stream.pcp node port := by
    rw [lowerAt, lowerAt, hG2q]
    exact List.filter_congr (fun n _ => hclassL n)
  have hsame_ne : ∀ m ∈ sameAt G1 stream.pcp node port, m ≠ h.name := by
    intro m hm hc
    subst hc
    have hs := (List.mem_filter.mp hm).2
    rw [isSame_eq, hfind1] at hs
    simp at hs
    omega
  have hlower_ne : ∀ m ∈ lowerAt G1 stream.pcp node port, m ≠ h.name := by
    intro m hm hc
    subst hc
    have hs := (List.mem_filter.mp hm).2
    rw [isLower_eq, hfind1] at hs
    simp at hs
    omega
  have hmatch_h1 : matchName G1.streams h.name = [h] :=
    matchName_of_findStream hnd hfind1
  have hnd2 : (G2.streams.map Stream.name).Nodup := by
    have : G2.streams.map Stream.name = G1.streams.map Stream.name := by
      rw [hG2s, hs1, List.map_append, List.map_append, List.map_cons,
        List.map_cons, hname]
    rw [this]
    exact hnd
  have hmatch_h2 : matchName G2.streams h.name = [h2] := by
    rw [← hname]
    exact matchName_of_findStream hnd2 (by rw [hname]; exact hfind2)
  -- b_H grows
  have hbH : bHAt G1 stream.pcp node port ≤ bHAt G2 stream.pcp node port := by
    rw [bHAt, bHAt, hhigherL, hG2h]
    apply flatMap_matchName_sum_le
    intro n _
    by_cases hn : n = h.name
    · subst hn
      rw [hmatch_h1, hmatch_h2]
      simp only [List.map_cons, List.map_nil, List.sum_cons, List.sum_nil]
      omega
    · rw [hmr n hn]
  -- r_H grows
  have hhb : (0 : ℤ) ≤ h.size + G1.header_size :=
    (hpos1 h (List.mem_append_right _ (.head _))).1
  have hhp : (0 : ℚ) < h.period :=
    (hpos1 h (List.mem_append_right _ (.head _))).2
  have hrH : rHAt G1 stream.pcp node port ≤ rHAt G2 stream.pcp node port := by
    rw [rHAt, rHAt, hhigherL, hG2h]
    apply flatMap_matchName_sum_le
    intro n _
    by_cases hn : n = h.name
    · subst hn
      rw [hmatch_h1, hmatch_h2]
      simp only [List.map_cons, List.map_nil, List.sum_cons, List.sum_nil,
        add_zero]
      apply div_le_div₀
      · exact_mod_cast le_trans hhb (by omega)
      · exact_mod_cast (by omega : h.size + G1.header_size ≤
          h2.size + G1.header_size)
      · exact hper2
      · exact hper
    · rw [hmr n hn]
  -- l_L unchanged
  have hlL : lLAt G2 stream.pcp node port = lLAt G1 stream.pcp node port := by
    rw [lLAt, lLAt, hlowerL, hG2h]
    have harg : ((lowerAt G1 stream.pcp node port).flatMap
        (matchName G2.streams)).map (fun s => s.size + G1.header_size) =
        ((lowerAt G1 stream.pcp node port).flatMap
          (matchName G1.streams)).map (fun s => s.size + G1.header_size) :=
      flatMap_matchName_congr G2.streams G1.streams _ _ _
        (fun n hn => by rw [hmr n (hlower_ne n hn)])
    rw [harg]
  -- nonnegativity of the shared burst quantities
  have hpos2 : ∀ s ∈ G2.streams, 0 ≤ s.size + G1.header_size := by
    intro s hs
    rw [hG2s] at hs
    rcases List.mem_append.mp hs with hs | hs
    · exact (hpos1 s (List.mem_append_left _ hs)).1
    · cases hs with
      | head => exact le_trans hhb (by omega)
      | tail _ htl =>
          exact (hpos1 s (List.mem_append_right _ (.tail _ htl))).1
  have hsum_nn : ∀ (streams : List Stream)
      (hp : ∀ s ∈ streams, 0 ≤ s.size + G1.header_size) (ns : List String),
      0 ≤ ((ns.flatMap (matchName streams)).map
        (fun s => s.size + G1.header_size)).sum := by
    intro streams hp ns
    apply List.sum_nonneg
    intro x hx
    obtain ⟨s, hs, hsx⟩ := List.mem_map.mp hx
    rw [← hsx]
    exact hp s (mem_flatMap_matchName hs)
  have hbH2nn : (0 : ℤ) ≤ bHAt G2 stream.pcp node port := by
    rw [bHAt, hG2h]
    exact hsum_nn G2.streams hpos2 _
  have hlLnn : (0 : ℤ) ≤ lLAt G1 stream.pcp node port := by
    rw [lLAt]
    apply pymaxZ_nonneg
    intro x hx
    obtain ⟨s, hs, hsx⟩ := List.mem_map.mp hx
    rw [← hsx]
    exact (hpos1 s (by rw [← hs1]; exact mem_flatMap_matchName hs)).1
  have hrl1 : rHAt G2 stream.pcp node port < G1.r_link := by
    rw [← hG2r]; exact hrl
  -- pointwise candidate monotonicity
  have hcand : ∀ j ∈ sameAt G1 stream.pcp node port,
      codeCand G1 (bHAt G1 stream.pcp node port)
        (lLAt G1 stream.pcp node port) (rHAt G1 stream.pcp node port)
        (sameAt G1 stream.pcp node port) j ≤
      codeCand G2 (bHAt G2 stream.pcp node port)
        (lLAt G2 stream.pcp node port) (rHAt G2 stream.pcp node port)
        (sameAt G1 stream.pcp node port) j := by
    intro j hj
    have hjne := hsame_ne j hj
    have hbCj : ((((sameAt G1 stream.pcp node port).filter
        (fun n => n != j)).flatMap (matchName G2.streams)).map
          (fun s => s.size + G2.header_size)).sum =
        ((((sameAt G1 stream.pcp node port).filter
          (fun n => n != j)).flatMap (matchName G1.streams)).map
            (fun s => s.size + G1.header_size)).sum := by
      rw [hG2h]
      have harg := flatMap_matchName_congr G2.streams G1.streams
        (fun s => s.size + G1.header_size) (fun s => s.size + G1.header_size)
        ((sameAt G1 stream.pcp node port).filter (fun n => n != j))
        (fun n hn => by
          rw [hmr n (hsame_ne n (List.mem_of_mem_filter hn))])
      rw [harg]
    have hbOf : bOf G2 j = bOf G1 j := by
      rw [bOf, bOf, hG2h, ← hfr j hjne]
    have hbCjnn : (0 : ℤ) ≤ ((((sameAt G1 stream.pcp node port).filter
        (fun n => n != j)).flatMap (matchName G1.streams)).map
          (fun s => s.size + G1.header_size)).sum := by
      apply List.sum_nonneg
      intro x hx
      obtain ⟨s, hs, hsx⟩ := List.mem_map.mp hx
      rw [← hsx]
      exact (hpos1 s (by rw [← hs1]; exact mem_flatMap_matchName hs)).1
    simp only [codeCand]
    rw [hbOf, hbCj, hG2r, hlL]
    apply add_le_add _ (le_refl _)
    apply div_le_div₀
    · have : (0 : ℤ) ≤ bHAt G2 stream.pcp node port +
          ((((sameAt G1 stream.pcp node port).filter
            (fun n => n != j)).flatMap (matchName G1.streams)).map
              (fun s => s.size + G1.header_size)).sum +
          (bOf G1 j - bOf G1 j) + lLAt G1 stream.pcp node port := by
        omega
      exact_mod_cast this
    · have hb12 := hbH
      have : bHAt G1 stream.pcp node port +
          ((((sameAt G1 stream.pcp node port).filter
            (fun n => n != j)).flatMap (matchName G1.streams)).map
              (fun s => s.size + G1.header_size)).sum +
          (bOf G1 j - bOf G1 j) + lLAt G1 stream.pcp node port ≤
          bHAt G2 stream.pcp node port +
          ((((sameAt G1 stream.pcp node port).filter
            (fun n => n != j)).flatMap (matchName G1.streams)).map
              (fun s => s.size + G1.header_size)).sum +
          (bOf G1 j - bOf G1 j) + lLAt G1 stream.pcp node port := by
        omega
      exact_mod_cast this
    · exact sub_pos.mpr hrl1
    · exact sub_le_sub_left hrH G1.r_link
  -- extract both maxima
  simp only [hop_df] at hok1 hok2
  rw [hsameL] at hok2
  have hd1 : d1 = pymaxQ ((sameAt G1 stream.pcp node port).map
      (codeCand G1 (bHAt G1 stream.pcp node port)
        (lLAt G1 stream.pcp node port) (rHAt G1 stream.pcp node port)
        (sameAt G1 stream.pcp node port))) := by
    cases ht : tempListAux G1 (bHAt G1 stream.pcp node port)
        (lLAt G1 stream.pcp node port) (rHAt G1 stream.pcp node port)
        (sameAt G1 stream.pcp node port)
        (sameAt G1 stream.pcp node port) with
    | error er => rw [ht] at hok1; cases hok1
    | ok temps =>
        rw [ht] at hok1
        have hmap := tempListAux_ok G1 _ _ _ _ _ _ ht
        cases temps with
        | nil => cases hok1
        | cons x xs =>
            simp only [] at hok1
            injection hok1 with hh
            rw [← hh, ← hmap, pymaxQ]
  have hd2 : d2 = pymaxQ ((sameAt G1 stream.pcp node port).map
      (codeCand G2 (bHAt G2 stream.pcp node port)
        (lLAt G2 stream.pcp node port) (rHAt G2 stream.pcp node port)
        (sameAt G1 stream.pcp node port))) := by
    cases ht : tempListAux G2 (bHAt G2 stream.pcp node port)
        (lLAt G2 stream.pcp node port) (rHAt G2 stream.pcp node port)
        (sameAt G1 stream.pcp node port)
        (sameAt G1 stream.pcp node port) with
    | error er => rw [ht] at hok2; cases hok2
    | ok temps =>
        rw [ht] at hok2
        have hmap := tempListAux_ok G2 _ _ _ _ _ _ ht
        cases temps with
        | nil => cases hok2
        | cons x xs =>
            simp only [] at hok2
            injection hok2 with hh
            rw [← hh, ← hmap, pymaxQ]
  rw [hd1, hd2]
  exact pymaxQ_map_mono _ _ _ hcand

/-! ### Soundness of the breadth-first search -/

/-- If the search yields a path, the target is reachable from the origin of
the frontier. -/
theorem bfsAux_reach (g : Graph) (b a : String) :
    ∀ (fuel : Nat) (frontier : List (List String))
      (visited : List String) (p : List String),
      (∀ q ∈ frontier, ∃ u rest, q = u :: rest ∧ Reachable g a u) →
      bfsAux g b fuel frontier visited = some p → Reachable g a b := by
  intro fuel
  induction fuel with
  | zero => intro _ _ _ _ h; cases h
  | succ fuel ih =>
      intro frontier visited p hinv hb
      cases frontier with
      | nil => cases hb
      | cons q rest =>
          cases q with
          | nil =>
              rw [bfsAux] at hb
              exact ih rest visited p (fun q hq => hinv q (.tail _ hq)) hb
          | cons u q2 =>
              rw [bfsAux] at hb
              by_cases hu : u = b
              · obtain ⟨u2, r2, hq, hr⟩ := hinv (u :: q2) (.head _)
                injection hq with h1 _
                subst h1
                subst hu
                exact hr
              · have hub : (u == b) = false := by simpa using hu
                rw [hub] at hb
                simp only [Bool.false_eq_true, if_false] at hb
                apply ih _ _ p _ hb
                intro q hq
                rcases List.mem_append.mp hq with hq | hq
                · exact hinv q (.tail _ hq)
                · obtain ⟨v, hv, hvq⟩ := List.mem_map.mp hq
                  obtain ⟨u2, r2, hq2, hr⟩ := hinv (u :: q2) (.head _)
                  injection hq2 with h1 _
                  subst h1
                  refine ⟨v, u :: q2, hvq.symm, ?_⟩
                  exact Relation.ReflTransGen.tail hr
                    (List.mem_of_mem_filter hv)

/-- A successful shortest-path query implies reachability. -/
theorem find_shortest_path_reach {g : Graph} {a b : String}
    {p : List String} (h : find_shortest_path g a b = some p) :
    Reachable g a b := by
  rw [find_shortest_path] at h
  by_cases hm : (!memNode g a || !memNode g b) = true
  · rw [if_pos hm] at h; cases h
  · rw [if_neg hm] at h
    exact bfsAux_reach g b a _ [[a]] [a] p
      (fun q hq => by
        cases hq with
        | head => exact ⟨a, [], rfl, Relation.ReflTransGen.refl⟩
        | tail _ h2 => cases h2) h

/-- An absent endpoint or an unreachable destination makes the query
return `None`. -/
theorem find_shortest_path_none {g : Graph} {a b : String}
    (h : memNode g a = false ∨ memNode g b = false ∨ ¬ Reachable g a b) :
    find_shortest_path g a b = none := by
  rcases h with h | h | h
  · rw [find_shortest_path, if_pos (by simp [h])]
  · rw [find_shortest_path, if_pos (by simp [h])]
  · cases hf : find_shortest_path g a b with
    | none => rfl
    | some p => exact absurd (find_shortest_path_reach hf) h

/-! ### The pipeline reads the topology only through nodes and edges -/

/-- Node membership depends only on the node and edge lists. -/
theorem memNode_congr (g h : Graph) (hn : g.nodes = h.nodes)
    (he : g.edges = h.edges) (n : String) : memNode g n = memNode h n := by
  rw [memNode, memNode, hn, he]

/-- Adjacency depends only on the edge list. -/
theorem neighborsOf_congr (g h : Graph) (he : g.edges = h.edges)
    (u : String) : neighborsOf g u = neighborsOf h u := by
  rw [neighborsOf, neighborsOf, he]

/-- The search depends only on the edge list. -/
theorem bfsAux_congr (g h : Graph) (he : g.edges = h.edges) (b : String) :
    ∀ (fuel : Nat) (frontier : List (List String)) (visited : List String),
      bfsAux g b fuel frontier visited = bfsAux h b fuel frontier visited := by
  intro fuel
  induction fuel with
  | zero => intro _ _; rfl
  | succ fuel ih =>
      intro frontier visited
      cases frontier with
      | nil => rfl
      | cons q rest =>
          cases q with
          | nil => rw [bfsAux, bfsAux]; exact ih rest visited
          | cons u q2 =>
              rw [bfsAux, bfsAux, neighborsOf_congr g h he]
              by_cases hu : (u == b) = true
              · rw [hu]
                simp
              · have hub : (u == b) = false := by
                  cases hb2 : (u == b) with
                  | true => exact absurd hb2 hu
                  | false => rfl
                rw [hub]
                simp only [Bool.false_eq_true, if_false]
                exact ih _ _

/-- The shortest-path query depends only on the node and edge lists. -/
theorem find_shortest_path_congr (g h : Graph) (hn : g.nodes = h.nodes)
    (he : g.edges = h.edges) (a b : String) :
    find_shortest_path g a b = find_shortest_path h a b := by
  rw [find_shortest_path, find_shortest_path, memNode_congr g h hn he,
    memNode_congr g h hn he, hn, he, bfsAux_congr g h he]

/-- Path annotation depends only on the edge list. -/
theorem annotate_congr (g h : Graph) (he : g.edges = h.edges)
    (dest : String) :
    ∀ path : List String, annotate g dest path = annotate h dest path := by
  intro path
  induction path with
  | nil => rfl
  | cons a rest ih =>
      cases rest with
      | nil => rfl
      | cons b rest2 =>
          rw [annotate, annotate, get_edge_data_congr g h he]
          cases get_edge_data h a b with
          | none => rfl
          | some e => rw [ih]

/-- The path-resolution loop depends on the graph only through its node
and edge lists. -/
theorem calcPathsAux_congr (g h : Graph) (hn : g.nodes = h.nodes)
    (he : g.edges = h.edges) :
    ∀ (streams : List Stream) (acc : List (String × List PathElem)),
      calcPathsAux g streams acc = calcPathsAux h streams acc := by
  intro streams
  induction streams with
  | nil => intro acc; rfl
  | cons s rest ih =>
      intro acc
      rw [calcPathsAux, calcPathsAux,
        find_shortest_path_congr g h hn he s.source s.destination]
      cases find_shortest_path h s.source s.destination with
      | none => exact ih acc
      | some path =>
          simp only []
          rw [annotate_congr g h he s.destination path]
          cases annotate h s.destination path with
          | error er => rfl
          | ok ap => exact ih _

/-! ### Skipping an unroutable stream -/

/-- Updating another key leaves a lookup unchanged. -/
theorem lookupPath_setAt_ne {m : List (String × List PathElem)}
    {k n : String} (hkn : k ≠ n) (v : List PathElem) :
    lookupPath (setAt m k v) n = lookupPath m n := by
  induction m with
  | nil =>
      have hb : (k == n) = false := by simpa using hkn
      simp [setAt, lookupPath, hb]
  | cons kv rest ih =>
      obtain ⟨k1, v1⟩ := kv
      by_cases h1 : k1 = k
      · subst h1
        have hb1 : (k1 == k1) = true := by simp
        have hbn : (k1 == n) = false := by simpa using hkn
        simp [setAt, lookupPath, hb1, hbn, List.find?_cons]
      · have hb1 : (k1 == k) = false := by simpa using h1
        rw [show setAt ((k1, v1) :: rest) k v =
          (k1, v1) :: setAt rest k v by simp [setAt, hb1]]
        rw [lookupPath, lookupPath, List.find?_cons, List.find?_cons]
        cases hb : (k1 == n) with
        | true => simp
        | false => simpa [hb] using ih

/-- A name that is never stored and never succeeds is absent from the
resolved paths. -/
theorem calcPathsAux_lookup_none (g : Graph) :
    ∀ (streams : List Stream) (acc : List (String × List PathElem))
      (n : String),
      lookupPath acc n = none →
      (∀ s ∈ streams, s.name = n →
        find_shortest_path g s.source s.destination = none) →
      ∀ res, calcPathsAux g streams acc = .ok res →
        lookupPath res n = none := by
  intro streams
  induction streams with
  | nil =>
      intro acc n hacc _ res hres
      simp only [calcPathsAux] at hres
      injection hres with h2
      rw [← h2]
      exact hacc
  | cons s rest ih =>
      intro acc n hacc hall res hres
      simp only [calcPathsAux] at hres
      cases hf : find_shortest_path g s.source s.destination with
      | none =>
          rw [hf] at hres
          exact ih acc n hacc (fun t ht htn => hall t (.tail _ ht) htn) res hres
      | some path =>
          rw [hf] at hres
          simp only [] at hres
          cases ha : annotate g s.destination path with
          | error er => rw [ha] at hres; cases hres
          | ok ap =>
              rw [ha] at hres
              by_cases hsn : s.name = n
              · exact absurd hf (by rw [hall s (.head _) hsn]; simp)
              · exact ih (setAt acc s.name ap) n
                  (by rw [lookupPath_setAt_ne hsn]; exact hacc)
                  (fun t ht htn => hall t (.tail _ ht) htn) res hres

/-- A stream whose query fails contributes nothing to the path
resolution. -/
theorem calcPathsAux_skip (g : Graph) (bad : Stream)
    (hf : find_shortest_path g bad.source bad.destination = none) :
    ∀ (pre post : List Stream) (acc : List (String × List PathElem)),
      calcPathsAux g (pre ++ bad :: post) acc =
        calcPathsAux g (pre ++ post) acc := by
  intro pre
  induction pre with
  | nil =>
      intro post acc
      rw [List.nil_append, List.nil_append]
      simp only [calcPathsAux, hf]
  | cons t pre ih =>
      intro post acc
      rw [List.cons_append, List.cons_append, calcPathsAux, calcPathsAux]
      cases find_shortest_path g t.source t.destination with
      | none => exact ih post acc
      | some path =>
          simp only []
          cases annotate g t.destination path with
          | error er => rfl
          | ok ap => exact ih post _

/-- An absent key has no stored pair. -/
theorem lookupPath_none_not_mem {sp : List (String × List PathElem)}
    {n : String} (h : lookupPath sp n = none) :
    ∀ p, (n, p) ∉ sp := by
  intro p hp
  rw [lookupPath] at h
  cases hf : sp.find? (fun kv => kv.1 == n) with
  | some kv => rw [hf] at h; cases h
  | none =>
      rw [List.find?_eq_none] at hf
      exact hf (n, p) hp (by simp)

/-! ### The delay engine reads streams only by the names it encounters -/

/-- Removing a stream leaves lookups of other names unchanged. -/
theorem findStream_append_erase (l1 l2 : List Stream) (bad : Stream)
    (n : String) (hn : bad.name ≠ n) :
    findStream (l1 ++ bad :: l2) n = findStream (l1 ++ l2) n := by
  induction l1 with
  | nil =>
      rw [List.nil_append, List.nil_append, findStream_cons, if_neg hn]
  | cons t ts ih =>
      rw [List.cons_append, List.cons_append, findStream_cons, findStream_cons]
      by_cases ht : t.name = n
      · rw [if_pos ht, if_pos ht]
      · rw [if_neg ht, if_neg ht]
        exact ih

/-- Removing a stream leaves name filters of other names unchanged. -/
theorem matchName_append_erase (l1 l2 : List Stream) (bad : Stream)
    (n : String) (hn : bad.name ≠ n) :
    matchName (l1 ++ bad :: l2) n = matchName (l1 ++ l2) n := by
  induction l1 with
  | nil =>
      rw [List.nil_append, List.nil_append, matchName_cons, if_neg hn]
  | cons t ts ih =>
      rw [List.cons_append, List.cons_append, matchName_cons, matchName_cons]
      by_cases ht : t.name = n
      · rw [if_pos ht, if_pos ht, ih]
      · rw [if_neg ht, if_neg ht]
        exact ih

/-- The entry sequence depends on streams only through the lookups of the
stored names. -/
theorem queueEntries_congr_names (gA gB : Graph) (he : gA.edges = gB.edges) :
    ∀ sp : List (String × List PathElem),
      (∀ nv ∈ sp, findStream gA.streams nv.1 = findStream gB.streams nv.1) →
      queueEntries gA sp = queueEntries gB sp := by
  intro sp
  induction sp with
  | nil => intro _; rfl
  | cons nv rest ih =>
      intro hall
      obtain ⟨name, path⟩ := nv
      rw [queueEntries, queueEntries, hall (name, path) (.head _)]
      cases findStream gB.streams name with
      | none => rfl
      | some stream =>
          simp only []
          rw [hopKeys_congr gA gB he stream.pcp path "N/A",
            ih (fun nv hnv => hall nv (.tail _ hnv))]

/-- The `temp_list` loop depends on streams only through the lookups of the
iterated and excluded names. -/
theorem tempListAux_congr (gA gB : Graph) (bH lL : ℤ) (rH : ℚ)
    (same : List String)
    (hr : gA.r_link = gB.r_link) (hh : gA.header_size = gB.header_size)
    (hm : ∀ n ∈ same, matchName gA.streams n = matchName gB.streams n) :
    ∀ js : List String, (∀ j ∈ js, bOf gA j = bOf gB j) →
      tempListAux gA bH lL rH same js = tempListAux gB bH lL rH same js := by
  intro js
  induction js with
  | nil => intro _; rfl
  | cons j js ih =>
      intro hj
      simp only [tempListAux]
      have hbc : (((same.filter (fun n => n != j)).flatMap
          (matchName gA.streams)).map (fun s => s.size + gA.header_size)).sum =
          (((same.filter (fun n => n != j)).flatMap
            (matchName gB.streams)).map (fun s => s.size + gB.header_size)).sum := by
        rw [hh]
        exact congrArg List.sum (flatMap_matchName_congr gA.streams gB.streams
          _ _ _ (fun n hn => by rw [hm n (List.mem_of_mem_filter hn)]))
      rw [hbc, hj j (.head _), hr, ih (fun m hm2 => hj m (.tail _ hm2))]

/-- The hop bound depends on streams only through the lookups of the names
gathered at the hop's queue. -/
theorem hop_df_congr (gA gB : Graph) (stream : Stream) (node : String)
    (port : ℤ)
    (hq : gA.queue_assignments = gB.queue_assignments)
    (hr : gA.r_link = gB.r_link) (hh : gA.header_size = gB.header_size)
    (hfx : ∀ n ∈ interferingAt gA.queue_assignments node port,
      findStream gA.streams n = findStream gB.streams n)
    (hmx : ∀ n ∈ interferingAt gA.queue_assignments node port,
      matchName gA.streams n = matchName gB.streams n) :
    hop_df gA stream node port = hop_df gB stream node port := by
  have hhL : higherAt gA stream.pcp node port =
      higherAt gB stream.pcp node port := by
    rw [higherAt, higherAt, ← hq]
    exact List.filter_congr (fun n hn => by
      rw [isHigher_eq, isHigher_eq, hfx n hn])
  have hsL : sameAt gA stream.pcp node port =
      sameAt gB stream.pcp node port := by
    rw [sameAt, sameAt, ← hq]
    exact List.filter_congr (fun n hn => by
      rw [isSame_eq, isSame_eq, hfx n hn])
  have hlLq : lowerAt gA stream.pcp node port =
      lowerAt gB stream.pcp node port := by
    rw [lowerAt, lowerAt, ← hq]
    exact List.filter_congr (fun n hn => by
      rw [isLower_eq, isLower_eq, hfx n hn])
  have hhmem : ∀ n ∈ higherAt gA stream.pcp node port,
      n ∈ interferingAt gA.queue_assignments node port := by
    intro n hn
    exact List.mem_of_mem_filter hn
  have hsmem : ∀ n ∈ sameAt gA stream.pcp node port,
      n ∈ interferingAt gA.queue_assignments node port := by
    intro n hn
    exact List.mem_of_mem_filter hn
  have hlmem : ∀ n ∈ lowerAt gA stream.pcp node port,
      n ∈ interferingAt gA.queue_assignments node port := by
    intro n hn
    exact List.mem_of_mem_filter hn
  have hrH : rHAt gA stream.pcp node port = rHAt gB stream.pcp node port := by
    rw [rHAt, rHAt, ← hhL]
    exact congrArg List.sum (by
      rw [hh]
      exact flatMap_matchName_congr gA.streams gB.streams _ _ _
        (fun n hn => by rw [hmx n (hhmem n hn)]))
  have hbH : bHAt gA stream.pcp node port = bHAt gB stream.pcp node port := by
    rw [bHAt, bHAt, ← hhL]
    exact congrArg List.sum (by
      rw [hh]
      exact flatMap_matchName_congr gA.streams gB.streams _ _ _
        (fun n hn => by rw [hmx n (hhmem n hn)]))
  have hlL : lLAt gA stream.pcp node port = lLAt gB stream.pcp node port := by
    rw [lLAt, lLAt, ← hlLq]
    exact congrArg pymaxZ (by
      rw [hh]
      exact flatMap_matchName_congr gA.streams gB.streams _ _ _
        (fun n hn => by rw [hmx n (hlmem n hn)]))
  simp only [hop_df]
  rw [hsL, hrH, hbH, hlL,
    tempListAux_congr gA gB _ _ _ _ hr hh
      (fun n hn => hmx n (hsmem n (hsL ▸ hn)))
      _ (fun j hj => by
        rw [bOf, bOf, hh, hfx j (hsmem j (hsL ▸ hj))])]

/-- The per-hop delay depends on streams only through name lookups at the
hop's queue. -/
theorem hopDelay_congr (gA gB : Graph) (stream : Stream)
    (current next2 : String)
    (hn : gA.nodes = gB.nodes) (he : gA.edges = gB.edges)
    (hp : gA.processing_delay = gB.processing_delay)
    (hq : gA.queue_assignments = gB.queue_assignments)
    (hr : gA.r_link = gB.r_link) (hh : gA.header_size = gB.header_size)
    (hfx : ∀ (node : String) (port : ℤ),
      ∀ n ∈ interferingAt gA.queue_assignments node port,
      findStream gA.streams n = findStream gB.streams n)
    (hmx : ∀ (node : String) (port : ℤ),
      ∀ n ∈ interferingAt gA.queue_assignments node port,
      matchName gA.streams n = matchName gB.streams n) :
    hopDelay gA stream current next2 = hopDelay gB stream current next2 := by
  rw [hopDelay, hopDelay, get_edge_data_congr gA gB he]
  cases get_edge_data gB current next2 with
  | none => rfl
  | some e =>
      simp only []
      rw [hop_df_congr gA gB stream current (resolvePort e current) hq hr hh
        (hfx current (resolvePort e current)) (hmx current (resolvePort e current))]
      cases hop_df gB stream current (resolvePort e current) with
      | error er => rfl
      | ok df =>
          simp only []
          rw [show nodeType gA current = nodeType gB current by
            rw [nodeType, nodeType, hn], hp]

/-- The hop loop depends on streams only through name lookups at the queues
it visits. -/
theorem computeHops_congr (gA gB : Graph) (stream : Stream)
    (hn : gA.nodes = gB.nodes) (he : gA.edges = gB.edges)
    (hp : gA.processing_delay = gB.processing_delay)
    (hq : gA.queue_assignments = gB.queue_assignments)
    (hr : gA.r_link = gB.r_link) (hh : gA.header_size = gB.header_size)
    (hfx : ∀ (node : String) (port : ℤ),
      ∀ n ∈ interferingAt gA.queue_assignments node port,
      findStream gA.streams n = findStream gB.streams n)
    (hmx : ∀ (node : String) (port : ℤ),
      ∀ n ∈ interferingAt gA.queue_assignments node port,
      matchName gA.streams n = matchName gB.streams n) :
    ∀ (path : List PathElem) (acc : ℚ),
      computeHops gA stream path acc = computeHops gB stream path acc := by
  intro path
  induction path with
  | nil => intro acc; rfl
  | cons a rest ih =>
      cases rest with
      | nil => intro acc; rfl
      | cons b rest2 =>
          intro acc
          rw [computeHops, computeHops,
            hopDelay_congr gA gB stream a.node b.node hn he hp hq hr hh hfx hmx]
          cases hopDelay gB stream a.node b.node with
          | error er => rfl
          | ok df => exact ih _

/-- The delay computation depends on streams only through the lookup of the
target name and the names at the visited queues. -/
theorem compute_congr (gA gB : Graph) (sn : String)
    (hsp : gA.stream_paths = gB.stream_paths)
    (hn : gA.nodes = gB.nodes) (he : gA.edges = gB.edges)
    (hp : gA.processing_delay = gB.processing_delay)
    (hq : gA.queue_assignments = gB.queue_assignments)
    (hr : gA.r_link = gB.r_link) (hh : gA.header_size = gB.header_size)
    (hfs : findStream gA.streams sn = findStream gB.streams sn)
    (hfx : ∀ (node : String) (port : ℤ),
      ∀ n ∈ interferingAt gA.queue_assignments node port,
      findStream gA.streams n = findStream gB.streams n)
    (hmx : ∀ (node : String) (port : ℤ),
      ∀ n ∈ interferingAt gA.queue_assignments node port,
      matchName gA.streams n = matchName gB.streams n) :
    compute_worst_case_delay gA sn = compute_worst_case_delay gB sn := by
  rw [compute_worst_case_delay, compute_worst_case_delay, hsp, hfs]
  cases lookupPath gB.stream_paths sn with
  | none => rfl
  | some path =>
      simp only []
      cases findStream gB.streams sn with
      | none => rfl
      | some stream =>
          simp only []
          exact computeHops_congr gA gB stream hn he hp hq hr hh hfx hmx path 0

/-- Witness for C8: speeding the higher-priority stream from rate `25` to
rate `40` raises the evaluated stream's hop bound from `3` to `6`. -/
theorem wcd_C8_witness : (3 : ℚ) ≤ 6 :=
  wcd_C8 exMono1 exMono2 exMonoS "N" 1 [] [exMonoS] exMonoH1 exMonoH2
    (by with_unfolding_all decide) (by with_unfolding_all decide)
    (by decide) (by decide) (by decide) (by decide)
    (by with_unfolding_all decide) (by with_unfolding_all decide)
    (by decide)
    (by intro s hs
        fin_cases hs <;>
          exact ⟨by decide, by with_unfolding_all decide⟩)
    (by with_unfolding_all decide) 3 6
    (by with_unfolding_all decide) (by with_unfolding_all decide)

/-! ### C6 -/

/-- C6: a stream whose endpoints are absent from the graph or whose
destination is unreachable fails for that stream only: the run records no
path for it (it is skipped), and every other stream's full pipeline result —
path resolution, queue assignment and delay — is exactly what it would be in
a run without the failing stream. -/
theorem wcd_C6 (g : Graph) (l1 l2 : List Stream) (bad : Stream)
    (hs : g.streams = l1 ++ bad :: l2)
    (hsp0 : g.stream_paths = [])
    (hqa0 : g.queue_assignments = [])
    (hname : bad.name ∉ (l1 ++ l2).map Stream.name)
    (hfail : memNode g bad.source = false ∨ memNode g bad.destination = false ∨
      ¬ Reachable g bad.source bad.destination) :
    (∀ g1, calculate_all_paths g = .ok g1 →
      lookupPath g1.stream_paths bad.name = none) ∧
    (∀ n, n ≠ bad.name →
      wcdOf g n = wcdOf { g with streams := l1 ++ l2 } n) := by
  have hfind_none : find_shortest_path g bad.source bad.destination = none :=
    find_shortest_path_none hfail
  have hnofind : ∀ s ∈ g.streams, s.name = bad.name →
      find_shortest_path g s.source s.destination = none := by
    intro s hsmem hsn
    rw [hs] at hsmem
    rcases List.mem_append.mp hsmem with hsmem | hsmem
    · exfalso
      apply hname
      rw [← hsn]
      exact List.mem_map_of_mem Stream.name (List.mem_append_left _ hsmem)
    · cases hsmem with
      | head => exact hfind_none
      | tail _ htl =>
          exfalso
          apply hname
          rw [← hsn]
          exact List.mem_map_of_mem Stream.name (List.mem_append_right _ htl)
  have hskip : ∀ sp, calcPathsAux g g.streams g.stream_paths = .ok sp →
      lookupPath sp bad.name = none := by
    intro sp hsp
    exact calcPathsAux_lookup_none g g.streams g.stream_paths bad.name
      (by rw [hsp0]; rfl) hnofind sp hsp
  constructor
  · intro g1 h1
    rw [calculate_all_paths] at h1
    cases hcp : calcPathsAux g g.streams g.stream_paths with
    | error er => rw [hcp] at h1; cases h1
    | ok sp =>
        rw [hcp] at h1
        injection h1 with h1e
        have : g1.stream_paths = sp := by rw [← h1e]
        rw [this]
        exact hskip sp hcp
  · intro n hn
    have hsp_eq : calcPathsAux g g.streams g.stream_paths =
        calcPathsAux { g with streams := l1 ++ l2 } (l1 ++ l2)
          g.stream_paths := by
      rw [hs, calcPathsAux_skip g bad hfind_none l1 l2 g.stream_paths]
      exact calcPathsAux_congr g { g with streams := l1 ++ l2 } rfl rfl
        (l1 ++ l2) g.stream_paths
    rw [wcdOf, wcdOf, calculate_all_paths, calculate_all_paths]
    cases hcp : calcPathsAux g g.streams g.stream_paths with
    | error er =>
        have hcp2 : calcPathsAux { g with streams := l1 ++ l2 }
            { g with streams := l1 ++ l2 }.streams
            { g with streams := l1 ++ l2 }.stream_paths = .error er := by
          rw [show ({ g with streams := l1 ++ l2 } : Graph).streams =
            l1 ++ l2 from rfl,
            show ({ g with streams := l1 ++ l2 } : Graph).stream_paths =
              g.stream_paths from rfl, ← hsp_eq, hcp]
        rw [hcp2]
    | ok sp =>
        have hcp2 : calcPathsAux { g with streams := l1 ++ l2 }
            { g with streams := l1 ++ l2 }.streams
            { g with streams := l1 ++ l2 }.stream_paths = .ok sp := by
          rw [show ({ g with streams := l1 ++ l2 } : Graph).streams =
            l1 ++ l2 from rfl,
            show ({ g with streams := l1 ++ l2 } : Graph).stream_paths =
              g.stream_paths from rfl, ← hsp_eq, hcp]
        rw [hcp2]
        simp only []
        -- the two intermediate graphs, with identical stream paths
        have hkeys : ∀ nv ∈ sp, nv.1 ≠ bad.name := by
          intro nv hnv hc
          exact lookupPath_none_not_mem (hskip sp hcp) nv.2
            (by rw [← hc]; exact hnv)
        have hfse : ∀ m, m ≠ bad.name →
            findStream (l1 ++ bad :: l2) m = findStream (l1 ++ l2) m :=
          fun m hm => findStream_append_erase l1 l2 bad m (fun hc => hm hc.symm)
        have hmse : ∀ m, m ≠ bad.name →
            matchName (l1 ++ bad :: l2) m = matchName (l1 ++ l2) m :=
          fun m hm => matchName_append_erase l1 l2 bad m (fun hc => hm hc.symm)
        have hqe_eq : queueEntries { g with stream_paths := sp } sp =
            queueEntries { g with streams := l1 ++ l2, stream_paths := sp }
              sp := by
          apply queueEntries_congr_names
          · rfl
          · intro nv hnv
            show findStream g.streams nv.1 = findStream (l1 ++ l2) nv.1
            rw [hs]
            exact hfse nv.1 (hkeys nv hnv)
        rw [assign_queues_eq, assign_queues_eq]
        rw [show queueEntries { g with stream_paths := sp }
            ({ g with stream_paths := sp } : Graph).stream_paths =
          queueEntries { g with stream_paths := sp } sp from rfl]
        rw [show queueEntries { g with streams := l1 ++ l2, stream_paths := sp }
            ({ g with streams := l1 ++ l2, stream_paths := sp } : Graph).stream_paths =
          queueEntries { g with streams := l1 ++ l2, stream_paths := sp } sp
          from rfl]
        rw [← hqe_eq]
        cases hqe : queueEntries { g with stream_paths := sp } sp with
        | error er => rfl
        | ok es =>
            simp only []
            -- all names gathered from the built index are stored names
            have hqnames : ∀ (node : String) (port : ℤ) (m : String),
                m ∈ interferingAt (qaFold es g.queue_assignments) node port →
                m ≠ bad.name := by
              intro node port m hm
              rw [hqa0] at hm
              rcases (mem_interferingAt_qaFold es [] m node port).mp hm with
                hb | ⟨k, hk, _, _⟩
              · simp [interferingAt] at hb
              · obtain ⟨p, stream, ks, hmem, _, _, _⟩ :=
                  (queueEntries_mem { g with stream_paths := sp } sp es hqe
                    k m).mp hk
                exact hkeys (m, p) hmem
            apply compute_congr
            · rfl
            · rfl
            · rfl
            · rfl
            · rfl
            · rfl
            · rfl
            · show findStream g.streams n = findStream (l1 ++ l2) n
              rw [hs]
              exact hfse n hn
            · intro node port m hm
              have hm2 : m ∈ interferingAt (qaFold es g.queue_assignments)
                  node port := hm
              show findStream g.streams m = findStream (l1 ++ l2) m
              rw [hs]
              exact hfse m (hqnames node port m hm2)
            · intro node port m hm
              have hm2 : m ∈ interferingAt (qaFold es g.queue_assignments)
                  node port := hm
              show matchName g.streams m = matchName (l1 ++ l2) m
              rw [hs]
              exact hmse m (hqnames node port m hm2)

/-- Witness for C6: adding the unroutable stream `B` (its source `ES9` is
not a node) to the two-hop scenario leaves `S1`'s pipeline result unchanged,
and `B` gets no resolved path. -/
theorem wcd_C6_witness :
    (∀ g1, calculate_all_paths exSkip = .ok g1 →
      lookupPath g1.stream_paths "B" = none) ∧
    wcdOf exSkip "S1" = wcdOf { exSkip with streams := [exS1] } "S1" := by
  have h := wcd_C6 exSkip [exS1] [] exSkipBad
    (by with_unfolding_all decide) (by decide) (by decide) (by decide)
    (Or.inl (by decide))
  exact ⟨h.1, h.2 "S1" (by decide)⟩

end WcdTool
